import Mathlib

/-!
Verification of the GCSA construction-support headers (`support.h`, `internal.h`).

The C++ code is shallowly embedded: 64-bit unsigned arithmetic is `Nat`
with explicit `% 2 ^ 64` wherever a C++ operation could wrap, byte values
are `Nat`s kept below 256 by the surrounding invariants, `std::map` is a
function into `Option`, and loops become structural or well-founded
recursion.
-/

namespace gcsa

/-- Size of the value space of `std::uint64_t` (`key_type`, `node_type`, `size_type`). -/
def U64 : Nat := 2 ^ 64

/-- Embedding of `gcsa::Alphabet` (support.h): the two translation tables.
`char2comp` is an `sdsl::int_vector<8>` indexed by character, so its
entries are bytes; `comp2char` maps comp values back to characters.  The
count vector `C` plays no role in the claims and is omitted. -/
structure Alphabet where
  char2comp : Char → Nat
  comp2char : Nat → Char

namespace Key

/-- `Key::encode` (support.h lines 130-141): shift each character's comp
value (a byte, hence the `% 256`) into the label, then append the
predecessor and successor bytes.  All arithmetic is on `key_type =
uint64_t`, hence the `% U64` after every shift. -/
def encode (alpha : Alphabet) (kmer : List Char) (pred succ : Nat) : Nat :=
  let v1 := kmer.foldl (fun v c => ((v <<< 3) % U64) ||| (alpha.char2comp c % 256)) 0
  let v2 := ((v1 <<< 8) % U64) ||| pred
  ((v2 <<< 8) % U64) ||| succ

/-- `Key::label` (support.h line 145): `key >> 16`. -/
def label (key : Nat) : Nat := key >>> 16

/-- `Key::predecessors` (support.h line 146): `(key >> 8) & 0xFF`. -/
def predecessors (key : Nat) : Nat := (key >>> 8) &&& 0xFF

/-- `Key::successors` (support.h line 147): `key & 0xFF`. -/
def successors (key : Nat) : Nat := key &&& 0xFF

/-- `Key::last` (support.h line 148): `(key >> 16) & CHAR_MASK`. -/
def last (key : Nat) : Nat := (key >>> 16) &&& 0x7

/-- Modelled from the spec: `Key::decode` is declared in support.h but its
body lives in support.cpp, which is not part of the given sources.  The
spec (4.B) says decode "reverses this, given a known k": it reads the
`kmer_length` base-8 digits of the label from most significant to least
significant and maps each comp value back through `comp2char`. -/
def decode (key : Nat) (kmer_length : Nat) (alpha : Alphabet) : List Char :=
  (List.range kmer_length).map
    (fun i => alpha.comp2char ((label key >>> (3 * (kmer_length - 1 - i))) &&& 0x7))

/-- The loop of `Key::lcp` (support.h lines 162-167): `mask` starts one
3-bit window above the label and is shifted right by `CHAR_WIDTH` at the
top of each iteration; the loop counts windows on which the labels agree
and stops at the first disagreement or once the mask has been consumed. -/
def lcpAux (a b : Nat) (mask : Nat) : Nat :=
  if h : 0 < mask then
    let m := mask >>> 3
    if (a &&& m) ≠ (b &&& m) then 0
    else 1 + lcpAux a b m
  else 0
termination_by mask
decreasing_by
  simp only [Nat.shiftRight_eq_div_pow]
  omega

/-- `Key::lcp` (support.h lines 156-170).  The initial mask
`CHAR_MASK << (CHAR_WIDTH * kmer_length)` is a `key_type` expression and
wraps modulo 2^64. -/
def lcp (a b : Nat) (kmer_length : Nat) : Nat :=
  lcpAux (label a) (label b) ((0x7 <<< (3 * kmer_length)) % U64)

end Key

namespace Node

/-- `Node::encode` (support.h lines 182-185): `(node_id << OFFSET_BITS) |
node_offset` on `uint64_t`.  Note: the offset is *not* masked. -/
def encode (node_id node_offset : Nat) : Nat :=
  ((node_id <<< 10) % U64) ||| node_offset

/-- `Node::id` (support.h line 190): `node >> OFFSET_BITS`. -/
def id (node : Nat) : Nat := node >>> 10

/-- `Node::offset` (support.h line 191): `node & OFFSET_MASK`. -/
def offset (node : Nat) : Nat := node &&& 0x3FF

end Node

/-! ### Arithmetic helpers for the bit-packing proofs -/

theorem shiftLeft_or_low (v c w : Nat) (h : c < 2 ^ w) :
    (v <<< w) ||| c = v * 2 ^ w + c := by
  rw [Nat.shiftLeft_eq, Nat.mul_comm v (2 ^ w), ← Nat.mul_add_lt_is_or h v,
    Nat.mul_comm (2 ^ w) v]

theorem and_mask_mod (x n : Nat) : x &&& (2 ^ n - 1) = x % 2 ^ n :=
  Nat.and_pow_two_sub_one_eq_mod x n

/-! ### C1: the concrete "ACG" key scenario -/

/-- The alphabet of the spec's concrete scenario 1:
terminator 0, A 1, C 2, G 3, T 4. -/
def alphaDNA : Alphabet where
  char2comp := fun c =>
    if c = 'A' then 1 else if c = 'C' then 2 else if c = 'G' then 3 else
    if c = 'T' then 4 else 0
  comp2char := fun v =>
    if v = 1 then 'A' else if v = 2 then 'C' else if v = 3 then 'G' else
    if v = 4 then 'T' else '$'

/-- C1 counterexample: the claimed label value 664 is wrong.  Encoding
`"ACG"` packs the three comp values into the lowest nine bits of the
label, so the label is `(1 << 6) | (2 << 3) | 3 = 83`, not
`(1 << 9) | (2 << 6) | (3 << 3) = 664`. -/
theorem C1_label_not_664 :
    Key.label (Key.encode alphaDNA ['A', 'C', 'G'] 0x10 0x02) ≠ 664 := by
  decide

/-- C1 (amended): with the alphabet mapping $->0, A->1, C->2, G->3, T->4,
the key `k = Key::encode(alpha, "ACG", 0x10, 0x02)` satisfies
`Key::label(k) == (1<<6)|(2<<3)|3 == 83`, `(k & 0xFFFF) == 0x1002`, and
`Key::decode(k, 3, alpha)` returns `"ACG"`. -/
theorem C1_acg_scenario :
    Key.label (Key.encode alphaDNA ['A', 'C', 'G'] 0x10 0x02) = 83
    ∧ (Key.encode alphaDNA ['A', 'C', 'G'] 0x10 0x02) &&& 0xFFFF = 0x1002
    ∧ Key.decode (Key.encode alphaDNA ['A', 'C', 'G'] 0x10 0x02) 3 alphaDNA
        = ['A', 'C', 'G'] := by
  refine ⟨by decide, by decide, by decide⟩

/-! ### C2: the node codec -/

/-- C2 counterexample: `Node::encode` does *not* mask the offset with
`0x3FF`; at `node_id = 0`, `node_offset = 1024` the code returns 1024
while the claimed formula `(id << 10) | (offset & 0x3FF)` gives 0. -/
theorem C2_encode_does_not_mask :
    Node.encode 0 1024 ≠ ((0 <<< 10) ||| (1024 &&& 0x3FF)) := by
  decide

/-- C2 (amended): `Node::encode(id, offset) = ((id << 10) mod 2^64) |
offset` with no masking of the offset; for every `id < 2^54` and
`offset < 1024` this equals `id * 1024 + offset` and the decoders invert
it; in particular `encode(5, 3) = 5123` with id 5 and offset 3. -/
theorem C2_node_codec :
    (∀ id off : Nat, id < 2 ^ 54 → off < 1024 →
       Node.encode id off = id * 1024 + off
       ∧ Node.id (Node.encode id off) = id
       ∧ Node.offset (Node.encode id off) = off)
    ∧ Node.encode 5 3 = 5123 ∧ Node.id 5123 = 5 ∧ Node.offset 5123 = 3 := by
  refine ⟨?_, by decide, by decide, by decide⟩
  intro id off hid hoff
  have henc : Node.encode id off = id * 1024 + off := by
    unfold Node.encode U64
    rw [Nat.shiftLeft_eq]
    have hlt : id * 2 ^ 10 < 2 ^ 64 := by
      calc id * 2 ^ 10 < 2 ^ 54 * 2 ^ 10 := by
            have h0 : (0 : Nat) < 2 ^ 10 := by norm_num
            exact (Nat.mul_lt_mul_right h0).mpr hid
        _ = 2 ^ 64 := by norm_num
    rw [Nat.mod_eq_of_lt hlt]
    have := Nat.mul_add_lt_is_or (show off < 2 ^ 10 by omega) id
    rw [Nat.mul_comm (2 ^ 10) id] at this
    omega
  refine ⟨henc, ?_, ?_⟩
  · unfold Node.id
    rw [henc, Nat.shiftRight_eq_div_pow]
    omega
  · unfold Node.offset
    rw [henc]
    have h1023 : (0x3FF : Nat) = 2 ^ 10 - 1 := by norm_num
    rw [h1023, and_mask_mod]
    omega

/-- C2 witness: the amended inversion statement at `id = 7`, `off = 9`. -/
theorem C2_node_codec_witness :
    Node.id (Node.encode 7 9) = 7 ∧ Node.offset (Node.encode 7 9) = 9 :=
  ⟨(C2_node_codec.1 7 9 (by norm_num) (by norm_num)).2.1,
   (C2_node_codec.1 7 9 (by norm_num) (by norm_num)).2.2⟩

/-! ### C3: key encode/decode round-trip -/

/-- The spec-side reading of the label (section 3 of the spec): the
big-endian base-8 packing of the kmer's comp values, zero-padded on the
left. -/
def packLabel (alpha : Alphabet) (kmer : List Char) : Nat :=
  kmer.foldl (fun x c => x * 8 + alpha.char2comp c) 0

/-- The `len` base-8 digits of `v`, most significant first, each read the
way the code reads label characters (`(v >> (3*pos)) & CHAR_MASK`). -/
def digitsOf (v len : Nat) : List Nat :=
  (List.range len).map (fun i => (v >>> (3 * (len - 1 - i))) &&& 0x7)

theorem pack_lt (alpha : Alphabet) :
    ∀ (kmer : List Char) (a j : Nat), a < 8 ^ j →
      (∀ c ∈ kmer, alpha.char2comp c < 8) →
      kmer.foldl (fun x c => x * 8 + alpha.char2comp c) a
        < 8 ^ (j + kmer.length) := by
  intro kmer
  induction kmer with
  | nil => intro a j ha _; simpa using ha
  | cons c cs ih =>
    intro a j ha hc
    have hc0 : alpha.char2comp c < 8 := hc c (by simp)
    have hstep : a * 8 + alpha.char2comp c < 8 ^ (j + 1) := by
      have h1 : (a + 1) * 8 ≤ 8 ^ j * 8 := Nat.mul_le_mul_right 8 ha
      have h2 : 8 ^ j * 8 = 8 ^ (j + 1) := (pow_succ 8 j).symm
      omega
    have := ih (a * 8 + alpha.char2comp c) (j + 1) hstep
      (fun d hd => hc d (by simp [hd]))
    have harith : j + 1 + cs.length = j + (c :: cs).length := by
      simp [List.length_cons]; omega
    rw [harith] at this
    simpa using this

theorem fold_eq_pack (alpha : Alphabet) :
    ∀ (kmer : List Char) (a j : Nat), a < 8 ^ j →
      3 * (j + kmer.length) ≤ 64 →
      (∀ c ∈ kmer, alpha.char2comp c < 8) →
      kmer.foldl (fun v c => ((v <<< 3) % U64) ||| (alpha.char2comp c % 256)) a
        = kmer.foldl (fun x c => x * 8 + alpha.char2comp c) a := by
  intro kmer
  induction kmer with
  | nil => intro a j _ _ _; rfl
  | cons c cs ih =>
    intro a j ha hlen hc
    have hc0 : alpha.char2comp c < 8 := hc c (by simp)
    have hstep : ((a <<< 3) % U64) ||| (alpha.char2comp c % 256)
        = a * 8 + alpha.char2comp c := by
      rw [Nat.mod_eq_of_lt (by omega : alpha.char2comp c < 256)]
      rw [Nat.shiftLeft_eq]
      have hlt : a * 2 ^ 3 < 2 ^ 64 := by
        have h1 : (a + 1) * 8 ≤ 8 ^ j * 8 := Nat.mul_le_mul_right 8 ha
        have h2 : 8 ^ j * 8 = 8 ^ (j + 1) := (pow_succ 8 j).symm
        have h3 : (8 : Nat) ^ (j + 1) = 2 ^ (3 * (j + 1)) := by
          rw [show (8 : Nat) = 2 ^ 3 by norm_num, ← pow_mul]
        have h4 : (2 : Nat) ^ (3 * (j + 1)) ≤ 2 ^ 64 := by
          apply Nat.pow_le_pow_right (by norm_num)
          simp [List.length_cons] at hlen
          omega
        omega
      rw [show U64 = 2 ^ 64 from rfl, Nat.mod_eq_of_lt hlt]
      have := Nat.mul_add_lt_is_or (show alpha.char2comp c < 2 ^ 3 by omega) a
      rw [Nat.mul_comm (2 ^ 3) a] at this
      omega
    have ha' : a * 8 + alpha.char2comp c < 8 ^ (j + 1) := by
      have h1 : (a + 1) * 8 ≤ 8 ^ j * 8 := Nat.mul_le_mul_right 8 ha
      have h2 : 8 ^ j * 8 = 8 ^ (j + 1) := (pow_succ 8 j).symm
      omega
    have hlen' : 3 * (j + 1 + cs.length) ≤ 64 := by
      simp [List.length_cons] at hlen
      omega
    simp only [List.foldl_cons, hstep]
    exact ih _ (j + 1) ha' hlen' (fun d hd => hc d (by simp [hd]))

theorem digitsOf_zero (v : Nat) : digitsOf v 0 = [] := rfl

theorem digitsOf_append_digit (p d l : Nat) (hd : d < 8) :
    digitsOf (p * 8 + d) (l + 1) = digitsOf p l ++ [d] := by
  unfold digitsOf
  rw [List.range_succ, List.map_append]
  congr 1
  · apply List.map_congr_left
    intro i hi
    have hil : i < l := List.mem_range.mp hi
    have e1 : l + 1 - 1 - i = (l - 1 - i) + 1 := by omega
    rw [e1]
    have e2 : (2 : Nat) ^ (3 * ((l - 1 - i) + 1)) = 8 * 2 ^ (3 * (l - 1 - i)) := by
      rw [Nat.mul_succ, pow_add]
      ring
    rw [Nat.shiftRight_eq_div_pow, Nat.shiftRight_eq_div_pow, e2]
    rw [← Nat.div_div_eq_div_mul]
    congr 2
    rw [Nat.mul_comm p 8, Nat.mul_add_div (by norm_num)]
    omega
  · simp only [List.map_cons, List.map_nil]
    congr 1
    have h0 : 3 * (l + 1 - 1 - l) = 0 := by omega
    rw [h0, Nat.shiftRight_zero]
    have h7 : (0x7 : Nat) = 2 ^ 3 - 1 := by norm_num
    rw [h7, and_mask_mod]
    omega

theorem digitsOf_pack (alpha : Alphabet) (kmer : List Char)
    (h : ∀ c ∈ kmer, alpha.char2comp c < 8) :
    digitsOf (packLabel alpha kmer) kmer.length = kmer.map alpha.char2comp := by
  induction kmer using List.reverseRecOn with
  | nil => rfl
  | append_singleton xs c ih =>
    have hxs : ∀ d ∈ xs, alpha.char2comp d < 8 := fun d hd => h d (by simp [hd])
    have hc : alpha.char2comp c < 8 := h c (by simp)
    have hpack : packLabel alpha (xs ++ [c])
        = packLabel alpha xs * 8 + alpha.char2comp c := by
      unfold packLabel
      rw [List.foldl_append]
      rfl
    rw [hpack, List.length_append, List.length_singleton,
      digitsOf_append_digit _ _ _ hc, ih hxs, List.map_append]
    rfl

theorem decode_eq_map (key len : Nat) (alpha : Alphabet) :
    Key.decode key len alpha
      = (digitsOf (Key.label key) len).map alpha.comp2char := by
  unfold Key.decode digitsOf
  rw [List.map_map]
  rfl

theorem encode_decompose (alpha : Alphabet) (kmer : List Char) (pred succ : Nat)
    (hlen : kmer.length ≤ 16)
    (hc : ∀ c ∈ kmer, alpha.char2comp c < 8)
    (hp : pred < 256) (hs : succ < 256) :
    Key.encode alpha kmer pred succ
      = packLabel alpha kmer * 2 ^ 16 + pred * 2 ^ 8 + succ
    ∧ packLabel alpha kmer < 2 ^ 48 := by
  have hfold := fold_eq_pack alpha kmer 0 0 (by norm_num) (by omega) hc
  have hlt : packLabel alpha kmer < 2 ^ 48 := by
    have h1 := pack_lt alpha kmer 0 0 (by norm_num) hc
    have h2 : (8 : Nat) ^ (0 + kmer.length) ≤ 8 ^ 16 :=
      Nat.pow_le_pow_right (by norm_num) (by omega)
    have h3 : (8 : Nat) ^ 16 = 2 ^ 48 := by norm_num
    unfold packLabel
    omega
  refine ⟨?_, hlt⟩
  have hfold2 : kmer.foldl
      (fun v c => ((v <<< 3) % U64) ||| (alpha.char2comp c % 256)) 0
      = packLabel alpha kmer := hfold
  unfold Key.encode
  rw [hfold2]
  show ((((packLabel alpha kmer <<< 8) % U64 ||| pred) <<< 8) % U64) ||| succ
      = packLabel alpha kmer * 2 ^ 16 + pred * 2 ^ 8 + succ
  set p := packLabel alpha kmer with hp'
  have e1 : ((p <<< 8) % U64) ||| pred = p * 2 ^ 8 + pred := by
    rw [Nat.shiftLeft_eq]
    have hlt1 : p * 2 ^ 8 < 2 ^ 64 := by
      have : p * 2 ^ 8 < 2 ^ 48 * 2 ^ 8 := by
        exact (Nat.mul_lt_mul_right (by norm_num)).mpr hlt
      have h2 : (2 : Nat) ^ 48 * 2 ^ 8 = 2 ^ 56 := by norm_num
      have h3 : (2 : Nat) ^ 56 < 2 ^ 64 := by norm_num
      omega
    rw [show U64 = 2 ^ 64 from rfl, Nat.mod_eq_of_lt hlt1]
    have := Nat.mul_add_lt_is_or (show pred < 2 ^ 8 by omega) p
    rw [Nat.mul_comm (2 ^ 8) p] at this
    omega
  rw [e1]
  have hlt2 : (p * 2 ^ 8 + pred) * 2 ^ 8 < 2 ^ 64 := by
    have h48 : (2 : Nat) ^ 48 = 281474976710656 := by norm_num
    have h8 : (2 : Nat) ^ 8 = 256 := by norm_num
    have h64 : (2 : Nat) ^ 64 = 18446744073709551616 := by norm_num
    omega
  rw [Nat.shiftLeft_eq, show U64 = 2 ^ 64 from rfl, Nat.mod_eq_of_lt hlt2]
  have := Nat.mul_add_lt_is_or (show succ < 2 ^ 8 by omega) (p * 2 ^ 8 + pred)
  rw [Nat.mul_comm (2 ^ 8) (p * 2 ^ 8 + pred)] at this
  have e2 : (p * 2 ^ 8 + pred) * 2 ^ 8 = p * 2 ^ 16 + pred * 2 ^ 8 := by
    have h8 : (2 : Nat) ^ 8 = 256 := by norm_num
    have h16 : (2 : Nat) ^ 16 = 65536 := by norm_num
    omega
  omega

/-- C3: for every alphabet whose comp values for the kmer's characters are
below 8 and round-trip through `comp2char` (a "valid" alphabet in the
spec's sense), every kmer of length at most 16 and every pred/succ byte,
`Key::encode` stores pred and succ in the two low bytes, stores the
big-endian 3-bit packing of the comp values as the label, and
`Key::decode` recovers the kmer. -/
theorem C3_key_roundtrip (alpha : Alphabet) (kmer : List Char) (pred succ : Nat)
    (hlen : kmer.length ≤ 16)
    (hc : ∀ c ∈ kmer, alpha.char2comp c < 8)
    (hp : pred < 256) (hs : succ < 256)
    (hinv : ∀ c ∈ kmer, alpha.comp2char (alpha.char2comp c) = c) :
    Key.predecessors (Key.encode alpha kmer pred succ) = pred
    ∧ Key.successors (Key.encode alpha kmer pred succ) = succ
    ∧ Key.label (Key.encode alpha kmer pred succ) = packLabel alpha kmer
    ∧ Key.decode (Key.encode alpha kmer pred succ) kmer.length alpha = kmer := by
  obtain ⟨henc, hlt⟩ := encode_decompose alpha kmer pred succ hlen hc hp hs
  have h8 : (2 : Nat) ^ 8 = 256 := by norm_num
  have h16 : (2 : Nat) ^ 16 = 65536 := by norm_num
  have h48 : (2 : Nat) ^ 48 = 281474976710656 := by norm_num
  have hlabel : Key.label (Key.encode alpha kmer pred succ)
      = packLabel alpha kmer := by
    unfold Key.label
    rw [henc, Nat.shiftRight_eq_div_pow]
    omega
  refine ⟨?_, ?_, hlabel, ?_⟩
  · unfold Key.predecessors
    rw [show (0xFF : Nat) = 2 ^ 8 - 1 by norm_num, and_mask_mod,
      Nat.shiftRight_eq_div_pow, henc]
    omega
  · unfold Key.successors
    rw [show (0xFF : Nat) = 2 ^ 8 - 1 by norm_num, and_mask_mod, henc]
    omega
  · rw [decode_eq_map, hlabel, digitsOf_pack alpha kmer hc, List.map_map]
    have : kmer.map (alpha.comp2char ∘ alpha.char2comp) = kmer.map id :=
      List.map_congr_left (fun c hcm => hinv c hcm)
    rw [this, List.map_id]

/-- C3 witness: the round-trip at a concrete valid input. -/
theorem C3_key_roundtrip_witness :
    Key.predecessors (Key.encode alphaDNA ['A', 'C'] 5 9) = 5
    ∧ Key.successors (Key.encode alphaDNA ['A', 'C'] 5 9) = 9
    ∧ Key.label (Key.encode alphaDNA ['A', 'C'] 5 9) = packLabel alphaDNA ['A', 'C']
    ∧ Key.decode (Key.encode alphaDNA ['A', 'C'] 5 9) (['A', 'C'].length) alphaDNA
        = ['A', 'C'] :=
  C3_key_roundtrip alphaDNA ['A', 'C'] 5 9 (by decide) (by decide)
    (by decide) (by decide) (by decide)

/-! ### C4: Key::lcp versus the longest common prefix of the digit lists -/

/-- Length of the longest common prefix of two lists (the spec-side notion
that C4 compares `Key::lcp` against). -/
def lcpLen : List Nat → List Nat → Nat
  | x :: xs, y :: ys => if x = y then 1 + lcpLen xs ys else 0
  | _, _ => 0

theorem and_shift_mask (x m s : Nat) :
    x &&& (m <<< s) = ((x >>> s) &&& m) <<< s := by
  apply Nat.eq_of_testBit_eq
  intro i
  simp only [Nat.testBit_and, Nat.testBit_shiftLeft, Nat.testBit_shiftRight]
  by_cases h : s ≤ i
  · have hi : s + (i - s) = i := by omega
    simp [ge_iff_le, h, hi]
  · simp [ge_iff_le, h]

theorem and_mask7_eq_iff (a b s : Nat) :
    (a &&& (0x7 <<< s) = b &&& (0x7 <<< s))
      ↔ ((a >>> s) &&& 0x7 = (b >>> s) &&& 0x7) := by
  rw [and_shift_mask, and_shift_mask]
  constructor
  · intro h
    rw [Nat.shiftLeft_eq, Nat.shiftLeft_eq] at h
    exact Nat.eq_of_mul_eq_mul_right (Nat.pos_pow_of_pos s (by norm_num)) h
  · intro h
    rw [h]

theorem digit_eq_mod (x k : Nat) : (x >>> (3 * k)) &&& 0x7 = x / 8 ^ k % 8 := by
  have h1 : (2 : Nat) ^ (3 * k) = 8 ^ k := by
    rw [pow_mul]; norm_num
  have h2 : (2 : Nat) ^ 3 = 8 := by norm_num
  rw [Nat.shiftRight_eq_div_pow, show (0x7 : Nat) = 2 ^ 3 - 1 by norm_num,
    and_mask_mod, h1, h2]

theorem mod_pow_succ_iff (a b k : Nat) :
    a % 8 ^ (k + 1) = b % 8 ^ (k + 1)
      ↔ (a / 8 ^ k % 8 = b / 8 ^ k % 8 ∧ a % 8 ^ k = b % 8 ^ k) := by
  have hdvd : (8 : Nat) ^ k ∣ 8 ^ (k + 1) := pow_dvd_pow 8 (by omega)
  have hda : a % 8 ^ (k + 1) % 8 ^ k = a % 8 ^ k := Nat.mod_mod_of_dvd a hdvd
  have hdb : b % 8 ^ (k + 1) % 8 ^ k = b % 8 ^ k := Nat.mod_mod_of_dvd b hdvd
  have hqa : a % 8 ^ (k + 1) / 8 ^ k = a / 8 ^ k % 8 := by
    rw [pow_succ]
    exact Nat.mod_mul_right_div_self a (8 ^ k) 8
  have hqb : b % 8 ^ (k + 1) / 8 ^ k = b / 8 ^ k % 8 := by
    rw [pow_succ]
    exact Nat.mod_mul_right_div_self b (8 ^ k) 8
  constructor
  · intro h
    rw [← hqa, ← hqb, ← hda, ← hdb, h]
    exact ⟨rfl, rfl⟩
  · rintro ⟨h1, h2⟩
    have da := Nat.div_add_mod (a % 8 ^ (k + 1)) (8 ^ k)
    have db := Nat.div_add_mod (b % 8 ^ (k + 1)) (8 ^ k)
    rw [hqa, hda] at da
    rw [hqb, hdb] at db
    rw [← da, ← db, h1, h2]

theorem digitsOf_succ (a k : Nat) :
    digitsOf a (k + 1) = ((a >>> (3 * k)) &&& 0x7) :: digitsOf a k := by
  unfold digitsOf
  rw [List.range_succ_eq_map, List.map_cons, List.map_map]
  congr 1
  apply List.map_congr_left
  intro i _
  simp only [Function.comp_apply]
  congr 2
  omega

theorem lcpAux_spec : ∀ (k a b : Nat),
    Key.lcpAux a b (0x7 <<< (3 * k))
      = if a % 8 ^ k = b % 8 ^ k then k + 1
        else lcpLen (digitsOf a k) (digitsOf b k) := by
  intro k
  induction k with
  | zero =>
    intro a b
    have h0 : Key.lcpAux a b 0 = 0 := by
      unfold Key.lcpAux
      simp
    have h7 : Key.lcpAux a b 7 = 1 := by
      unfold Key.lcpAux
      simp [h0]
    simpa [Nat.mod_one] using h7
  | succ k ih =>
    intro a b
    have h3 : 3 * (k + 1) = 3 * k + 3 := by ring
    have hm : (0x7 <<< (3 * (k + 1))) >>> 3 = 0x7 <<< (3 * k) := by
      rw [h3, Nat.shiftLeft_eq, Nat.shiftLeft_eq, Nat.shiftRight_eq_div_pow,
        pow_add, ← Nat.mul_assoc]
      exact Nat.mul_div_cancel _ (by norm_num)
    have hpos : 0 < 0x7 <<< (3 * (k + 1)) := by
      rw [Nat.shiftLeft_eq]
      positivity
    rw [Key.lcpAux]
    rw [dif_pos hpos]
    simp only [hm]
    show (if (a &&& (0x7 <<< (3 * k))) ≠ (b &&& (0x7 <<< (3 * k))) then 0
        else 1 + Key.lcpAux a b (0x7 <<< (3 * k))) = _
    have hcond : ((a &&& (0x7 <<< (3 * k))) = (b &&& (0x7 <<< (3 * k))))
        ↔ (a / 8 ^ k % 8 = b / 8 ^ k % 8) := by
      rw [and_mask7_eq_iff, digit_eq_mod, digit_eq_mod]
    by_cases hd : a / 8 ^ k % 8 = b / 8 ^ k % 8
    · rw [if_neg (show ¬(a &&& (0x7 <<< (3 * k))) ≠ (b &&& (0x7 <<< (3 * k)))
        from fun hne => hne (hcond.mpr hd))]
      rw [ih a b]
      by_cases hlow : a % 8 ^ k = b % 8 ^ k
      · have heq : a % 8 ^ (k + 1) = b % 8 ^ (k + 1) :=
          (mod_pow_succ_iff a b k).mpr ⟨hd, hlow⟩
        rw [if_pos hlow, if_pos heq]
        omega
      · have hne : a % 8 ^ (k + 1) ≠ b % 8 ^ (k + 1) :=
          fun he => hlow ((mod_pow_succ_iff a b k).mp he).2
        rw [if_neg hlow, if_neg hne, digitsOf_succ, digitsOf_succ]
        have hheads : (a >>> (3 * k)) &&& 0x7 = (b >>> (3 * k)) &&& 0x7 := by
          rw [digit_eq_mod, digit_eq_mod]
          exact hd
        simp only [lcpLen]
        rw [if_pos hheads]
    · rw [if_pos (show (a &&& (0x7 <<< (3 * k))) ≠ (b &&& (0x7 <<< (3 * k)))
        from fun he => hd (hcond.mp he))]
      have hne : a % 8 ^ (k + 1) ≠ b % 8 ^ (k + 1) :=
        fun he => hd ((mod_pow_succ_iff a b k).mp he).1
      rw [if_neg hne, digitsOf_succ, digitsOf_succ]
      have hheads : (a >>> (3 * k)) &&& 0x7 ≠ (b >>> (3 * k)) &&& 0x7 := by
        rw [digit_eq_mod, digit_eq_mod]
        exact hd
      simp only [lcpLen]
      rw [if_neg hheads]

/-- C4 counterexample: on two keys with *equal* labels the loop also
consumes the final zero mask and counts one extra agreeing window, so for
`k = 1` and identical labels `Key::lcp` returns 2 although the longest
common prefix of two length-1 digit sequences is 1. -/
theorem C4_equal_labels_off_by_one :
    Key.lcp 0 0 1 = 2
    ∧ lcpLen (digitsOf (Key.label 0) 1) (digitsOf (Key.label 0) 1) = 1 := by
  constructor
  · have hmod : (0x7 <<< (3 * 1)) % U64 = 0x7 <<< (3 * 1) := by
      decide
    have hlab : Key.label 0 = 0 := rfl
    unfold Key.lcp
    rw [hlab, hmod, lcpAux_spec 1 0 0]
    norm_num
  · decide

/-- C4 (amended): for keys whose labels encode k-mers of length `k ≤ 16`,
`Key::lcp(a, b, k)` equals the length of the longest common prefix of the
two k-digit comp sequences whenever the labels are distinct; when the two
labels are equal it returns `k + 1` (one more than the common prefix
length `k`), because the loop also counts the final iteration in which the
mask has been shifted to zero. -/
theorem C4_key_lcp (a b k : Nat) (hk : k ≤ 16)
    (ha : Key.label a < 8 ^ k) (hb : Key.label b < 8 ^ k) :
    Key.lcp a b k
      = if Key.label a = Key.label b then k + 1
        else lcpLen (digitsOf (Key.label a) k) (digitsOf (Key.label b) k) := by
  unfold Key.lcp
  have hmod : (0x7 <<< (3 * k)) % U64 = 0x7 <<< (3 * k) := by
    apply Nat.mod_eq_of_lt
    rw [Nat.shiftLeft_eq]
    have h1 : (2 : Nat) ^ (3 * k) ≤ 2 ^ 48 :=
      Nat.pow_le_pow_right (by norm_num) (by omega)
    have h2 : (7 : Nat) * 2 ^ 48 < 2 ^ 64 := by norm_num
    have h3 : (7 : Nat) * 2 ^ (3 * k) ≤ 7 * 2 ^ 48 :=
      Nat.mul_le_mul_left 7 h1
    show (7 : Nat) * 2 ^ (3 * k) < U64
    unfold U64
    omega
  rw [hmod, lcpAux_spec k (Key.label a) (Key.label b),
    Nat.mod_eq_of_lt ha, Nat.mod_eq_of_lt hb]

/-- C4 witness: distinct labels 5 and 6 at `k = 2`. -/
theorem C4_key_lcp_witness :
    Key.lcp (5 <<< 16) (6 <<< 16) 2
      = if Key.label (5 <<< 16) = Key.label (6 <<< 16) then 2 + 1
        else lcpLen (digitsOf (Key.label (5 <<< 16)) 2)
              (digitsOf (Key.label (6 <<< 16)) 2) :=
  C4_key_lcp (5 <<< 16) (6 <<< 16) 2 (by norm_num) (by decide) (by decide)

/-! ### C5: LCP::extendRange -/

/-- Embedding of `gcsa::LCP` (support.h): the fields `extendRange` reads.
`kmer_lcp` is an `sdsl::int_vector<0>` of length `total_keys`, modelled as
a total function whose meaningful entries are the indices below
`total_keys`.  The RMQ structure is not consulted by `extendRange` and is
omitted. -/
structure LCP where
  kmer_length : Nat
  total_keys : Nat
  kmer_lcp : Nat → Nat

namespace LCP

/-- First loop of `LCP::extendRange` (support.h line 426):
`while(range.first > 0 && kmer_lcp[range.first] >= lcp) range.first--`. -/
def extendLeft (f : Nat → Nat) (l : Nat) : Nat → Nat
  | 0 => 0
  | lo + 1 => if f (lo + 1) ≥ l then extendLeft f l lo else lo + 1

/-- Second loop of `LCP::extendRange` (support.h line 427):
`while(range.second + 1 < total_keys && kmer_lcp[range.second + 1] >= lcp)
range.second++`. -/
def extendRight (f : Nat → Nat) (total l hi : Nat) : Nat :=
  if h : hi + 1 < total ∧ f (hi + 1) ≥ l then extendRight f total l (hi + 1)
  else hi
termination_by total - hi
decreasing_by
  omega

/-- `LCP::extendRange` (support.h lines 424-429). -/
def extendRange (self : LCP) (range : Nat × Nat) (l : Nat) : Nat × Nat :=
  (extendLeft self.kmer_lcp l range.1,
   extendRight self.kmer_lcp self.total_keys l range.2)

end LCP

theorem extendLeft_le (f : Nat → Nat) (l : Nat) :
    ∀ lo, LCP.extendLeft f l lo ≤ lo := by
  intro lo
  induction lo with
  | zero => exact Nat.le_refl 0
  | succ lo ih =>
    unfold LCP.extendLeft
    by_cases h : f (lo + 1) ≥ l
    · rw [if_pos h]; omega
    · rw [if_neg h]

theorem extendLeft_stop (f : Nat → Nat) (l : Nat) :
    ∀ lo, LCP.extendLeft f l lo = 0 ∨ f (LCP.extendLeft f l lo) < l := by
  intro lo
  induction lo with
  | zero => exact Or.inl rfl
  | succ lo ih =>
    unfold LCP.extendLeft
    by_cases h : f (lo + 1) ≥ l
    · rw [if_pos h]; exact ih
    · rw [if_neg h]; exact Or.inr (by omega)

theorem extendLeft_crossed (f : Nat → Nat) (l : Nat) :
    ∀ lo i, LCP.extendLeft f l lo < i → i ≤ lo → f i ≥ l := by
  intro lo
  induction lo with
  | zero => intro i h1 h2; omega
  | succ lo ih =>
    intro i h1 h2
    unfold LCP.extendLeft at h1
    by_cases h : f (lo + 1) ≥ l
    · rw [if_pos h] at h1
      by_cases hi : i = lo + 1
      · rw [hi]; exact h
      · exact ih i h1 (by omega)
    · rw [if_neg h] at h1
      omega

theorem extendLeft_of_stopped (f : Nat → Nat) (l m : Nat)
    (h : m = 0 ∨ f m < l) : LCP.extendLeft f l m = m := by
  cases m with
  | zero => rfl
  | succ m =>
    unfold LCP.extendLeft
    rw [if_neg]
    rcases h with h | h
    · omega
    · omega

theorem extendRight_spec (f : Nat → Nat) (total l : Nat) : ∀ hi,
    hi ≤ LCP.extendRight f total l hi
    ∧ (LCP.extendRight f total l hi + 1 ≥ total
        ∨ f (LCP.extendRight f total l hi + 1) < l)
    ∧ (∀ i, hi < i → i ≤ LCP.extendRight f total l hi → f i ≥ l)
    ∧ (hi < total → LCP.extendRight f total l hi < total) := by
  have main : ∀ n hi, total - hi ≤ n →
      hi ≤ LCP.extendRight f total l hi
      ∧ (LCP.extendRight f total l hi + 1 ≥ total
          ∨ f (LCP.extendRight f total l hi + 1) < l)
      ∧ (∀ i, hi < i → i ≤ LCP.extendRight f total l hi → f i ≥ l)
      ∧ (hi < total → LCP.extendRight f total l hi < total) := by
    intro n
    induction n with
    | zero =>
      intro hi hle
      have hstop : ¬(hi + 1 < total ∧ f (hi + 1) ≥ l) :=
        fun hc => absurd hc.1 (by omega)
      rw [LCP.extendRight, dif_neg hstop]
      exact ⟨Nat.le_refl hi, Or.inl (by omega),
        fun i h1 h2 => absurd h2 (by omega), fun h => h⟩
    | succ n ih =>
      intro hi hle
      by_cases hc : hi + 1 < total ∧ f (hi + 1) ≥ l
      · rw [LCP.extendRight, dif_pos hc]
        obtain ⟨ih1, ih2, ih3, ih4⟩ := ih (hi + 1) (by omega)
        refine ⟨by omega, ih2, ?_, fun _ => ih4 hc.1⟩
        intro i h1 h2
        by_cases hieq : i = hi + 1
        · rw [hieq]; exact hc.2
        · exact ih3 i (by omega) h2
      · rw [LCP.extendRight, dif_neg hc]
        refine ⟨Nat.le_refl hi, ?_, fun i h1 h2 => absurd h2 (by omega),
          fun h => h⟩
        by_cases h1 : hi + 1 < total
        · have h2 : ¬(f (hi + 1) ≥ l) := fun hb => hc ⟨h1, hb⟩
          exact Or.inr (by omega)
        · exact Or.inl (by omega)
  exact fun hi => main total hi (by omega)

theorem extendRight_of_stopped (f : Nat → Nat) (total l m : Nat)
    (h : m + 1 ≥ total ∨ f (m + 1) < l) :
    LCP.extendRight f total l m = m := by
  rw [LCP.extendRight, dif_neg]
  rcases h with h | h
  · exact fun hc => absurd hc.1 (by omega)
  · exact fun hc => absurd hc.2 (by omega)

/-- C5: `extendRange` is idempotent; its result contains the seed range,
stays inside `[0, total_keys)`, every boundary entry it crossed is at
least the threshold, and it stops exactly at a failing boundary on both
sides (maximality). -/
theorem C5_extendRange_spec (L : LCP) (lo hi l : Nat)
    (_hrange : lo ≤ hi) (hhi : hi < L.total_keys) :
    L.extendRange (L.extendRange (lo, hi) l) l = L.extendRange (lo, hi) l
    ∧ (L.extendRange (lo, hi) l).1 ≤ lo
    ∧ hi ≤ (L.extendRange (lo, hi) l).2
    ∧ (L.extendRange (lo, hi) l).2 < L.total_keys
    ∧ (∀ i, (L.extendRange (lo, hi) l).1 < i → i ≤ lo → L.kmer_lcp i ≥ l)
    ∧ (∀ i, hi < i → i ≤ (L.extendRange (lo, hi) l).2 → L.kmer_lcp i ≥ l)
    ∧ ((L.extendRange (lo, hi) l).1 = 0
        ∨ L.kmer_lcp ((L.extendRange (lo, hi) l).1) < l)
    ∧ ((L.extendRange (lo, hi) l).2 + 1 ≥ L.total_keys
        ∨ L.kmer_lcp ((L.extendRange (lo, hi) l).2 + 1) < l) := by
  obtain ⟨hr1, hr2, hr3, hr4⟩ := extendRight_spec L.kmer_lcp L.total_keys l hi
  have hl1 := extendLeft_le L.kmer_lcp l lo
  have hl2 := extendLeft_stop L.kmer_lcp l lo
  have hl3 := extendLeft_crossed L.kmer_lcp l lo
  refine ⟨?_, hl1, hr1, hr4 hhi, hl3, hr3, hl2, hr2⟩
  unfold LCP.extendRange
  simp only
  rw [extendLeft_of_stopped L.kmer_lcp l _ hl2,
    extendRight_of_stopped L.kmer_lcp L.total_keys l _ hr2]

/-- Concrete three-key LCP structure used by the C5 witness. -/
def lcpExample : LCP := ⟨3, 3, fun i => if i = 1 then 5 else 0⟩

/-- C5 witness: idempotence at the concrete structure, range (1,1),
threshold 3. -/
theorem C5_extendRange_witness :
    lcpExample.extendRange (lcpExample.extendRange (1, 1) 3) 3
      = lcpExample.extendRange (1, 1) 3 :=
  (C5_extendRange_spec lcpExample 1 1 3 (by norm_num)
    (by show (1 : Nat) < 3; norm_num)).1

/-! ### C6: PathNode ordering -/

/-- Embedding of `gcsa::PathNode` (support.h lines 246-374).  The two
`rank_type[LABEL_LENGTH]` arrays are modelled as total functions (the code
only reads indices below `order() <= 8`); `fields` is the packed word.
`from`/`to` are carried for structural fidelity but play no role in the
comparisons. -/
structure PathNode where
  fromNode : Nat
  toNode : Nat
  first_label : Nat → Nat
  last_label : Nat → Nat
  fields : Nat

namespace PathNode

/-- `PathNode::order` (support.h line 287): `(fields >> 8) & 0xF`. -/
def order (p : PathNode) : Nat := (p.fields >>> 8) &&& 0xF

/-- The comparison loop shared by `operator<` and `compareLast`
(support.h lines 331-338 and 344-352): scan `fuel` positions starting at
`i`; at the first position where the labels differ return their
comparison, otherwise fall through to the order tie-break `tie`. -/
def cmpLoop (f g : Nat → Nat) (tie : Bool) : Nat → Nat → Bool
  | _, 0 => tie
  | i, fuel + 1 =>
    if f i ≠ g i then decide (f i < g i)
    else cmpLoop f g tie (i + 1) fuel

/-- `PathNode::operator<` (support.h lines 329-340): compare
`first_label` up to `min(order, another.order)`, tie-break
`order() < another.order()`. -/
def lt (a b : PathNode) : Bool :=
  cmpLoop a.first_label b.first_label (decide (a.order < b.order)) 0
    (min a.order b.order)

/-- `PathNode::compareLast` (support.h lines 343-354): compare
`last_label` up to `min(order, another.order)`, tie-break
`another.order() < order()`. -/
def compareLast (a b : PathNode) : Bool :=
  cmpLoop a.last_label b.last_label (decide (b.order < a.order)) 0
    (min a.order b.order)

end PathNode

/-- The effective first-label sequence of a path node: its `order` leading
first-label ranks.  `operator<` reads nothing else, so it can only
distinguish nodes whose first-label sequences differ; a node's label
*range* additionally depends on its last-label sequence. -/
def firstSeq (p : PathNode) : List Nat :=
  (List.range p.order).map p.first_label

/-- The effective last-label sequence of a path node: its `order` leading
last-label ranks.  The node's label range is the closed interval from the
concatenation behind `firstSeq` to the one behind `lastSeq`. -/
def lastSeq (p : PathNode) : List Nat :=
  (List.range p.order).map p.last_label

/-- The claim's side condition: `order` lies in `[1, 8]`. -/
def orderOK (p : PathNode) : Prop := 1 ≤ p.order ∧ p.order ≤ 8

theorem cmpLoop_shift (tie : Bool) : ∀ (fuel : Nat) (f g : Nat → Nat) (i : Nat),
    PathNode.cmpLoop f g tie (i + 1) fuel
      = PathNode.cmpLoop (fun j => f (j + 1)) (fun j => g (j + 1)) tie i fuel := by
  intro fuel
  induction fuel with
  | zero => intros; rfl
  | succ fuel ih =>
    intro f g i
    simp only [PathNode.cmpLoop]
    rw [ih f g (i + 1)]

theorem cmpLoop_const (f g : Nat → Nat) (tie : Bool) :
    ∀ (fuel i : Nat), (∀ j, i ≤ j → j < i + fuel → f j = g j) →
      PathNode.cmpLoop f g tie i fuel = tie := by
  intro fuel
  induction fuel with
  | zero => intros; rfl
  | succ fuel ih =>
    intro i h
    have h0 : f i = g i := h i (Nat.le_refl i) (by omega)
    simp only [PathNode.cmpLoop]
    rw [if_neg (by simpa using h0)]
    exact ih (i + 1) (fun j hj1 hj2 => h j (by omega) (by omega))

theorem lex_cons_ne {x y : Nat} {A B : List Nat} (hne : x ≠ y) :
    List.Lex (· < ·) (x :: A) (y :: B) ↔ x < y := by
  constructor
  · intro h
    cases h with
    | cons h => exact absurd rfl hne
    | rel h => exact h
  · exact fun h => List.Lex.rel h

theorem cmpLoop_lex : ∀ (fuel : Nat) (f g : Nat → Nat) (p q : Nat),
    fuel = min p q →
    (PathNode.cmpLoop f g (decide (p < q)) 0 fuel = true
      ↔ List.Lex (· < ·) ((List.range p).map f) ((List.range q).map g)) := by
  intro fuel
  induction fuel with
  | zero =>
    intro f g p q hmin
    simp only [PathNode.cmpLoop]
    constructor
    · intro ht
      have hpq : p < q := of_decide_eq_true ht
      have hp : p = 0 := by omega
      subst hp
      cases q with
      | zero => omega
      | succ q =>
        rw [List.range_succ_eq_map, List.map_cons]
        exact List.Lex.nil
    · intro hlex
      by_cases hp : p = 0
      · subst hp
        cases q with
        | zero => exact absurd hlex (List.Lex.not_nil_right _ _)
        | succ q => simp
      · have hq : q = 0 := by omega
        subst hq
        exact absurd hlex (List.Lex.not_nil_right _ _)
  | succ fuel ih =>
    intro f g p q hmin
    obtain ⟨p', rfl⟩ : ∃ p', p = p' + 1 := ⟨p - 1, by omega⟩
    obtain ⟨q', rfl⟩ : ∃ q', q = q' + 1 := ⟨q - 1, by omega⟩
    rw [List.range_succ_eq_map, List.map_cons, List.map_map,
      List.range_succ_eq_map, List.map_cons, List.map_map]
    simp only [PathNode.cmpLoop]
    rw [cmpLoop_shift]
    have hmin' : fuel = min p' q' := by omega
    have hdec : decide (p' + 1 < q' + 1) = decide (p' < q') :=
      decide_eq_decide.mpr (by omega)
    by_cases hfg : f 0 = g 0
    · rw [if_neg (by simpa using hfg), hdec,
        ih (fun j => f (j + 1)) (fun j => g (j + 1)) p' q' hmin']
      have hcomp : (List.range p').map (f ∘ Nat.succ)
          = (List.range p').map (fun j => f (j + 1)) := rfl
      have hcomp' : (List.range q').map (g ∘ Nat.succ)
          = (List.range q').map (fun j => g (j + 1)) := rfl
      rw [hcomp, hcomp', ← hfg]
      exact (List.Lex.cons_iff).symm
    · rw [if_pos hfg]
      rw [lex_cons_ne hfg]
      simp

theorem pathNode_lt_iff_lex (a b : PathNode) :
    PathNode.lt a b = true ↔ List.Lex (· < ·) (firstSeq a) (firstSeq b) := by
  unfold PathNode.lt firstSeq
  exact cmpLoop_lex (min a.order b.order) a.first_label b.first_label
    a.order b.order rfl

theorem lex_trans_nat {s t u : List Nat} (h1 : List.Lex (· < ·) s t)
    (h2 : List.Lex (· < ·) t u) : List.Lex (· < ·) s u := by
  haveI hsw : IsStrictWeakOrder (List Nat) (List.Lex (· < ·)) :=
    isStrictWeakOrder_of_isOrderConnected
  exact trans_of (List.Lex (· < ·)) h1 h2

/-- C6 (amended): the proper-prefix rule for `operator<` (a proper
prefix of the first label is smaller), the strict-order laws
(irreflexive, asymmetric, transitive), totality on nodes with distinct
*first-label* sequences — not on all nodes with distinct label ranges,
since `operator<` never reads `last_label` — and the mirrored
proper-prefix rule for `compareLast` (a proper prefix of the last label
is larger). -/
theorem C6_pathnode_ordering :
    (∀ a b : PathNode, orderOK a → orderOK b → a.order < b.order →
        (∀ i, i < a.order → a.first_label i = b.first_label i) →
        PathNode.lt a b = true)
    ∧ (∀ a : PathNode, orderOK a → PathNode.lt a a = false)
    ∧ (∀ a b : PathNode, orderOK a → orderOK b →
        PathNode.lt a b = true → PathNode.lt b a = false)
    ∧ (∀ a b c : PathNode, orderOK a → orderOK b → orderOK c →
        PathNode.lt a b = true → PathNode.lt b c = true →
        PathNode.lt a c = true)
    ∧ (∀ a b : PathNode, orderOK a → orderOK b → firstSeq a ≠ firstSeq b →
        PathNode.lt a b = true ∨ PathNode.lt b a = true)
    ∧ (∀ a b : PathNode, orderOK a → orderOK b → a.order < b.order →
        (∀ i, i < a.order → a.last_label i = b.last_label i) →
        PathNode.compareLast b a = true ∧ PathNode.compareLast a b = false) := by
  refine ⟨?_, ?_, ?_, ?_, ?_, ?_⟩
  · intro a b _ _ hord heq
    unfold PathNode.lt
    rw [Nat.min_eq_left (Nat.le_of_lt hord),
      cmpLoop_const a.first_label b.first_label _ a.order 0
        (fun j _ h2 => heq j (by omega))]
    exact decide_eq_true hord
  · intro a _
    have hn : ¬ (PathNode.lt a a = true) := fun h =>
      (asymm_of (List.Lex (· < ·)) ((pathNode_lt_iff_lex a a).mp h))
        ((pathNode_lt_iff_lex a a).mp h)
    exact Bool.eq_false_iff.mpr hn
  · intro a b _ _ h
    have hlex := (pathNode_lt_iff_lex a b).mp h
    exact Bool.eq_false_iff.mpr (fun h2 =>
      (asymm_of (List.Lex (· < ·)) hlex) ((pathNode_lt_iff_lex b a).mp h2))
  · intro a b c _ _ _ h1 h2
    exact (pathNode_lt_iff_lex a c).mpr
      (lex_trans_nat ((pathNode_lt_iff_lex a b).mp h1)
        ((pathNode_lt_iff_lex b c).mp h2))
  · intro a b _ _ hne
    haveI htN : IsTrichotomous Nat (· < ·) := ⟨fun x y => by omega⟩
    haveI ht : IsTrichotomous (List Nat) (List.Lex (· < ·)) :=
      List.Lex.isTrichotomous _
    rcases ht.trichotomous (firstSeq a) (firstSeq b) with h | h | h
    · exact Or.inl ((pathNode_lt_iff_lex a b).mpr h)
    · exact absurd h hne
    · exact Or.inr ((pathNode_lt_iff_lex b a).mpr h)
  · intro a b _ _ hord heq
    constructor
    · unfold PathNode.compareLast
      rw [Nat.min_eq_right (Nat.le_of_lt hord),
        cmpLoop_const b.last_label a.last_label _ a.order 0
          (fun j _ h2 => (heq j (by omega)).symm)]
      exact decide_eq_true hord
    · unfold PathNode.compareLast
      rw [Nat.min_eq_left (Nat.le_of_lt hord),
        cmpLoop_const a.last_label b.last_label _ a.order 0
          (fun j _ h2 => heq j (by omega))]
      exact decide_eq_false (by omega)

/-- Concrete order-1 path node with labels `[1]`, for the C6 witness. -/
def pnA : PathNode := ⟨0, 0, fun _ => 1, fun _ => 1, 0x100⟩

/-- Concrete order-2 path node with labels `[1, 2]`, for the C6 witness. -/
def pnB : PathNode := ⟨0, 0, fun i => if i = 0 then 1 else 2,
  fun i => if i = 0 then 1 else 2, 0x200⟩

/-- Concrete order-1 path node with first label `[1]` but last label
`[2]`: same first-label sequence as `pnA`, different label range. -/
def pnD : PathNode := ⟨0, 0, fun _ => 1, fun _ => 2, 0x100⟩

/-- C6 counterexample: `operator<` is *not* a total order on path nodes
with distinct label ranges.  `pnA` (range `[1]..[1]`) and `pnD` (range
`[1]..[2]`) are both of order 1 and their label ranges differ (their
last-label sequences differ), yet the comparison loop sees only the
equal first labels and the order tie-break fails both ways, so neither
node compares below the other. -/
theorem C6_not_total_on_ranges :
    (firstSeq pnA, lastSeq pnA) ≠ (firstSeq pnD, lastSeq pnD)
    ∧ orderOK pnA ∧ orderOK pnD
    ∧ PathNode.lt pnA pnD = false
    ∧ PathNode.lt pnD pnA = false := by
  refine ⟨by decide, by constructor <;> decide, by constructor <;> decide,
    by decide, by decide⟩

/-- C6 witness: `pnA`'s labels are a proper prefix of `pnB`'s, so
`pnA < pnB` and `compareLast` puts `pnA` last. -/
theorem C6_pathnode_ordering_witness :
    PathNode.lt pnA pnB = true ∧ PathNode.compareLast pnB pnA = true := by
  have hordA : orderOK pnA := by constructor <;> decide
  have hordB : orderOK pnB := by constructor <;> decide
  have hord : pnA.order < pnB.order := by decide
  have heqf : ∀ i, i < pnA.order → pnA.first_label i = pnB.first_label i := by
    intro i hi
    have h1 : pnA.order = 1 := by decide
    rw [h1] at hi
    have h0 : i = 0 := by omega
    rw [h0]
    decide
  have heql : ∀ i, i < pnA.order → pnA.last_label i = pnB.last_label i := by
    intro i hi
    have h1 : pnA.order = 1 := by decide
    rw [h1] at hi
    have h0 : i = 0 := by omega
    rw [h0]
    decide
  exact ⟨C6_pathnode_ordering.1 pnA pnB hordA hordB hord heqf,
    (C6_pathnode_ordering.2.2.2.2.2 pnA pnB hordA hordB hord heql).1⟩

/-! ### C7 and C10: SLArray -/

/-- Embedding of `gcsa::SLArray` (internal.h lines 96-123): the byte
vector `data` and the `std::map large_values`, modelled as a partial
function (absent keys are `none`, as in a map without the entry). -/
structure SLArray where
  data : List Nat
  large_values : Nat → Option Nat

namespace SLArray

/-- `SLArray::LARGE_VALUE` (internal.h line 101). -/
def LARGE_VALUE : Nat := 255

/-- Modelled from the spec: the constructor `SLArray(n)` is declared in
internal.h but its body lives in internal.cpp, which is not part of the
given sources.  Per the header comment ("Values start as 0s") and spec
4.H, it creates `n` byte slots holding 0 and an empty map. -/
def init (n : Nat) : SLArray := ⟨List.replicate n 0, fun _ => none⟩

/-- `SLArray::size` (internal.h line 105): declared `bool`, so the C++
`data.size()` is converted to `false` iff it is zero. -/
def size (s : SLArray) : Bool := decide (s.data.length ≠ 0)

/-- `SLArray::operator[]` (internal.h lines 107-110).  `large_values.at(i)`
throws when the key is absent; the model returns `none` in that case. -/
def get (s : SLArray) (i : Nat) : Option Nat :=
  if s.data.getD i 0 = LARGE_VALUE then s.large_values i
  else some (s.data.getD i 0)

/-- `SLArray::increment` (internal.h lines 112-120).  `large_values[i]++`
default-inserts 0 before incrementing, hence the `getD 0 + 1`. -/
def increment (s : SLArray) (i : Nat) : SLArray :=
  if s.data.getD i 0 = LARGE_VALUE then
    { s with large_values := fun j =>
        if j = i then some ((s.large_values i).getD 0 + 1)
        else s.large_values j }
  else
    let d := s.data.set i (s.data.getD i 0 + 1)
    if d.getD i 0 = LARGE_VALUE then
      { data := d, large_values := fun j =>
          if j = i then some LARGE_VALUE else s.large_values j }
    else
      { data := d, large_values := s.large_values }

end SLArray

theorem getD_set_self (l : List Nat) (i v : Nat) (h : i < l.length) :
    (l.set i v).getD i 0 = v := by
  have h2 : i < (l.set i v).length := by simpa using h
  rw [List.getD_eq_getElem _ _ h2, List.getElem_set_self]

theorem getD_set_ne (l : List Nat) (i j v : Nat) (hne : i ≠ j)
    (hj : j < l.length) : (l.set i v).getD j 0 = l.getD j 0 := by
  have h2 : j < (l.set i v).length := by simpa using hj
  rw [List.getD_eq_getElem _ _ h2, List.getD_eq_getElem _ _ hj,
    List.getElem_set_ne hne]

/-- The invariant tying an `SLArray` state to the per-slot counts: small
counts live in the byte, large counts have the byte pinned at 255 and the
true value in the map. -/
def slInv (s : SLArray) (n : Nat) (cnt : Nat → Nat) : Prop :=
  s.data.length = n ∧
  ∀ i, i < n →
    (cnt i < 255 → s.data.getD i 0 = cnt i)
    ∧ (255 ≤ cnt i → s.data.getD i 0 = 255 ∧ s.large_values i = some (cnt i))

theorem slarray_step (s : SLArray) (n : Nat) (cnt : Nat → Nat) (j : Nat)
    (hinv : slInv s n cnt) (hj : j < n) :
    slInv (s.increment j) n (fun i => if i = j then cnt i + 1 else cnt i) := by
  obtain ⟨hlen, hprop⟩ := hinv
  have hjlen : j < s.data.length := by omega
  unfold SLArray.increment SLArray.LARGE_VALUE
  by_cases hbig : 255 ≤ cnt j
  · obtain ⟨hd, hl⟩ := (hprop j hj).2 hbig
    rw [if_pos hd]
    refine ⟨hlen, ?_⟩
    intro i hi
    by_cases hij : i = j
    · subst hij
      refine ⟨fun hc => by simp at hc; omega, fun _ => ⟨hd, ?_⟩⟩
      simp [hl]
    · have := hprop i hi
      simp only [if_neg hij]
      exact ⟨fun hc => (this.1 hc), fun hc => by
        obtain ⟨h1, h2⟩ := this.2 hc
        exact ⟨h1, by simp [hij, h2]⟩⟩
  · have hd : s.data.getD j 0 = cnt j := (hprop j hj).1 (by omega)
    rw [if_neg (by omega)]
    by_cases h254 : cnt j = 254
    · have hd255 : (s.data.set j (s.data.getD j 0 + 1)).getD j 0 = 255 := by
        rw [getD_set_self _ _ _ hjlen, hd, h254]
      rw [if_pos hd255]
      refine ⟨by simpa using hlen, ?_⟩
      intro i hi
      by_cases hij : i = j
      · subst hij
        refine ⟨fun hc => by simp at hc; omega, fun _ => ⟨hd255, by simp [h254]⟩⟩
      · simp only [if_neg hij]
        have := hprop i hi
        have hget : (s.data.set j (s.data.getD j 0 + 1)).getD i 0
            = s.data.getD i 0 := getD_set_ne _ _ _ _ (fun h => hij h.symm) (by omega)
        exact ⟨fun hc => by rw [hget]; exact this.1 hc, fun hc => by
          obtain ⟨h1, h2⟩ := this.2 hc
          exact ⟨by rw [hget]; exact h1, by simp [hij, h2]⟩⟩
    · have hd255 : ¬ (s.data.set j (s.data.getD j 0 + 1)).getD j 0 = 255 := by
        rw [getD_set_self _ _ _ hjlen, hd]
        omega
      rw [if_neg hd255]
      refine ⟨by simpa using hlen, ?_⟩
      intro i hi
      by_cases hij : i = j
      · subst hij
        have hget : (s.data.set i (s.data.getD i 0 + 1)).getD i 0
            = cnt i + 1 := by rw [getD_set_self _ _ _ hjlen, hd]
        refine ⟨fun _ => by rw [hget]; simp, fun hc => by simp at hc; omega⟩
      · simp only [if_neg hij]
        have := hprop i hi
        have hget : (s.data.set j (s.data.getD j 0 + 1)).getD i 0
            = s.data.getD i 0 := getD_set_ne _ _ _ _ (fun h => hij h.symm) (by omega)
        exact ⟨fun hc => by rw [hget]; exact this.1 hc, fun hc => by
          obtain ⟨h1, h2⟩ := this.2 hc
          exact ⟨by rw [hget]; exact h1, h2⟩⟩

theorem slarray_run (n : Nat) : ∀ (ops : List Nat) (s : SLArray) (cnt : Nat → Nat),
    slInv s n cnt → (∀ j ∈ ops, j < n) →
    slInv (ops.foldl SLArray.increment s) n (fun i => cnt i + ops.count i) := by
  intro ops
  induction ops with
  | nil =>
    intro s cnt hinv _
    simpa using hinv
  | cons j ops ih =>
    intro s cnt hinv hops
    simp only [List.foldl_cons]
    have hstep := slarray_step s n cnt j hinv (hops j (by simp))
    have hrec := ih (s.increment j) _ hstep (fun x hx => hops x (by simp [hx]))
    have hfun : (fun i => cnt i + (j :: ops).count i)
        = (fun i => (if i = j then cnt i + 1 else cnt i) + ops.count i) := by
      funext i
      rw [List.count_cons]
      by_cases hij : i = j <;> simp [hij] <;> omega
    rw [hfun]
    exact hrec

/-- C7: starting from `SLArray(n)` (all counters zero), after any finite
sequence of in-range increments, `operator[](i)` returns exactly the
number of `increment(i)` calls — including counts at or above 255, which
are carried in `large_values` after promotion. -/
theorem C7_slarray_counts (n : Nat) (ops : List Nat)
    (hops : ∀ j ∈ ops, j < n) (i : Nat) (hi : i < n) :
    (ops.foldl SLArray.increment (SLArray.init n)).get i
      = some (ops.count i) := by
  have hinv0 : slInv (SLArray.init n) n (fun _ => 0) := by
    refine ⟨by simp [SLArray.init], ?_⟩
    intro k hk
    refine ⟨fun _ => ?_, fun h => by simp at h⟩
    show (SLArray.init n).data.getD k 0 = 0
    unfold SLArray.init
    rw [List.getD_eq_getElem _ _ (by simpa using hk), List.getElem_replicate]
  have hrun := slarray_run n ops (SLArray.init n) _ hinv0 hops
  obtain ⟨hlen, hprop⟩ := hrun
  obtain ⟨h1, h2⟩ := hprop i hi
  unfold SLArray.get SLArray.LARGE_VALUE
  by_cases hc : ops.count i < 255
  · have hd := h1 (by simpa using hc)
    simp only at hd
    rw [if_neg (by omega), hd]
    simp
  · obtain ⟨hd, hl⟩ := h2 (by simp; omega)
    rw [if_pos hd, hl]
    simp
/-- C7 witness: 300 increments of slot 0 in a one-slot array. -/
theorem C7_slarray_counts_witness :
    ((List.replicate 300 0).foldl SLArray.increment (SLArray.init 1)).get 0
      = some ((List.replicate 300 0).count 0) :=
  C7_slarray_counts 1 (List.replicate 300 0)
    (fun j hj => by
      have := List.eq_of_mem_replicate hj
      omega)
    0 (by norm_num)

/-- C10: `SLArray::size()` is declared with return type `bool`, so it
collapses `data.size()` to a truth value: 1 (true) for any `n >= 1`, 0
(false) for `n = 0`, and in particular it never reports the actual slot
count once `n >= 2`. -/
theorem C10_size_returns_bool :
    (∀ n, 1 ≤ n → (SLArray.init n).size = true)
    ∧ (SLArray.init 0).size = false
    ∧ (∀ n, 2 ≤ n → (if (SLArray.init n).size then 1 else 0) ≠ n) := by
  have hsize : ∀ n, (SLArray.init n).size = decide (n ≠ 0) := by
    intro n
    unfold SLArray.size SLArray.init
    simp
  refine ⟨?_, by decide, ?_⟩
  · intro n hn
    rw [hsize]
    exact decide_eq_true (by omega)
  · intro n hn
    rw [hsize, decide_eq_true (show n ≠ 0 by omega)]
    simp
    omega

/-- C10 witness: a five-slot array reports size 1 (true), not 5. -/
theorem C10_size_returns_bool_witness :
    (SLArray.init 5).size = true
    ∧ (if (SLArray.init 5).size then 1 else 0) ≠ 5 :=
  ⟨C10_size_returns_bool.1 5 (by norm_num),
   C10_size_returns_bool.2.2 5 (by norm_num)⟩

/-! ### C8: ValueIndex -/

/-- The constructor scan of `gcsa::ValueIndex` (internal.h lines 55-65):
walk the input keeping the previous getter value, starting from the
sentinel `prev = ~(size_type)0 = 2^64 - 1`; whenever the current value
differs from `prev`, push it into the buffer and set the `first_occ` bit
of the position.  Returns (buffer, first_occ). -/
def scanRuns {α : Type} (g : α → Nat) : List α → Nat → List Nat × List Bool
  | [], _ => ([], [])
  | x :: xs, prev =>
    if g x ≠ prev then
      (g x :: (scanRuns g xs (g x)).1, true :: (scanRuns g xs (g x)).2)
    else
      ((scanRuns g xs prev).1, false :: (scanRuns g xs prev).2)

/-- Embedding of `gcsa::ValueIndex` (internal.h lines 41-88): the marked
value list (the data behind the `sd_vector values`) and the run-start bit
vector `first_occ`. -/
structure ValueIndex where
  buffer : List Nat
  first_occ : List Bool

/-- The `ValueIndex` constructor (internal.h lines 50-77). -/
def ValueIndex.build {α : Type} (g : α → Nat) (input : List α) : ValueIndex :=
  ⟨(scanRuns g input (2 ^ 64 - 1)).1, (scanRuns g input (2 ^ 64 - 1)).2⟩

/-- Size of the `sd_vector` built from the strictly increasing buffer:
one past the largest stored position, 0 for an empty vector (sdsl
semantics of `sd_vector(begin, end)`). -/
def sdSize (buf : List Nat) : Nat :=
  match buf.getLast? with
  | some v => v + 1
  | none => 0

/-- `rank_1(v)` of the `sd_vector`: the number of marked values below `v`
(sdsl semantics of `sd_vector<>::rank_1_type`). -/
def sdRank (buf : List Nat) (v : Nat) : Nat :=
  (buf.filter (fun x => decide (x < v))).length

/-- `select_1(r)` on a plain bit vector, 1-based as in sdsl: the position
of the `r`-th set bit (sdsl semantics of `bit_vector::select_1_type`). -/
def select1 : List Bool → Nat → Nat
  | [], _ => 0
  | b :: rest, r =>
    if b then (if r ≤ 1 then 0 else select1 rest (r - 1) + 1)
    else select1 rest r + 1

/-- `ValueIndex::find` (internal.h lines 80-84). -/
def ValueIndex.find (vi : ValueIndex) (value : Nat) : Nat :=
  if value ≥ sdSize vi.buffer ∨ value ∉ vi.buffer then vi.first_occ.length
  else select1 vi.first_occ (sdRank vi.buffer value + 1)

theorem select1_true_one (occ : List Bool) : select1 (true :: occ) 1 = 0 := by
  simp [select1]

theorem select1_true_big (occ : List Bool) (r : Nat) (h : 2 ≤ r) :
    select1 (true :: occ) r = select1 occ (r - 1) + 1 := by
  show (if true then (if r ≤ 1 then 0 else select1 occ (r - 1) + 1)
      else select1 occ r + 1) = select1 occ (r - 1) + 1
  rw [if_pos rfl, if_neg (by omega)]

theorem select1_false (occ : List Bool) (r : Nat) :
    select1 (false :: occ) r = select1 occ r + 1 := by
  simp [select1]

theorem scanRuns_spec {α : Type} (g : α → Nat) :
    ∀ (xs : List α) (prev : Nat),
      List.Sorted (· ≤ ·) (prev :: xs.map g) →
      (scanRuns g xs prev).2.length = xs.length
      ∧ List.Pairwise (· < ·) (prev :: (scanRuns g xs prev).1)
      ∧ (∀ v, v ∈ (scanRuns g xs prev).1 ↔ (v ∈ xs.map g ∧ prev < v))
      ∧ (∀ v, prev < v → v ∈ (scanRuns g xs prev).1 →
          select1 (scanRuns g xs prev).2
              (sdRank (scanRuns g xs prev).1 v + 1)
            = (xs.map g).indexOf v) := by
  intro xs
  induction xs with
  | nil =>
    intro prev _
    refine ⟨rfl, by simp [scanRuns], fun v => by simp [scanRuns],
      fun v _ hv => ?_⟩
    simp [scanRuns] at hv
  | cons x xs ih =>
    intro prev hsorted
    have hmap : (x :: xs).map g = g x :: xs.map g := rfl
    rw [hmap] at hsorted ⊢
    have hprevle : ∀ b ∈ g x :: xs.map g, prev ≤ b :=
      List.rel_of_sorted_cons hsorted
    have htail : List.Sorted (· ≤ ·) (g x :: xs.map g) := hsorted.of_cons
    by_cases hne : g x ≠ prev
    · have hlt : prev < g x :=
        Nat.lt_of_le_of_ne (hprevle (g x) (by simp)) (fun h => hne h.symm)
      obtain ⟨ih1, ih2, ih3, ih4⟩ := ih (g x) htail
      have hscan : scanRuns g (x :: xs) prev
          = (g x :: (scanRuns g xs (g x)).1,
             true :: (scanRuns g xs (g x)).2) := by
        simp [scanRuns, hne]
      rw [hscan]
      have hgxall : ∀ b ∈ (scanRuns g xs (g x)).1, g x < b :=
        fun b hb => ((ih3 b).mp hb).2
      refine ⟨by simpa using ih1, ?_, ?_, ?_⟩
      · refine List.Pairwise.cons ?_ ih2
        intro b hb
        rcases List.mem_cons.mp hb with rfl | hb
        · exact hlt
        · exact Nat.lt_trans hlt (hgxall b hb)
      · intro v
        simp only [List.mem_cons]
        constructor
        · rintro (rfl | hv)
          · exact ⟨Or.inl rfl, hlt⟩
          · obtain ⟨hm, hgt⟩ := (ih3 v).mp hv
            exact ⟨Or.inr hm, Nat.lt_trans hlt hgt⟩
        · rintro ⟨hm, hp⟩
          rcases hm with rfl | hm
          · exact Or.inl rfl
          · by_cases hvx : v = g x
            · exact Or.inl hvx
            · have hgxv : g x < v :=
                Nat.lt_of_le_of_ne
                  (List.rel_of_sorted_cons htail v hm)
                  (fun h => hvx h.symm)
              exact Or.inr ((ih3 v).mpr ⟨hm, hgxv⟩)
      · intro v hpv hv
        rcases List.mem_cons.mp hv with rfl | hv
        · have hfilter : ((g x :: (scanRuns g xs (g x)).1).filter
              (fun y => decide (y < g x))) = [] := by
            rw [List.filter_eq_nil_iff]
            intro a ha
            simp only [decide_eq_true_eq]
            rcases List.mem_cons.mp ha with rfl | ha
            · omega
            · have := hgxall a ha
              omega
          have hrank : sdRank (g x :: (scanRuns g xs (g x)).1) (g x) = 0 := by
            unfold sdRank
            rw [hfilter]
            rfl
          rw [hrank, select1_true_one, List.indexOf_cons_self]
        · have hgxv : g x < v := ((ih3 v).mp hv).2
          have hrank : sdRank (g x :: (scanRuns g xs (g x)).1) v
              = sdRank (scanRuns g xs (g x)).1 v + 1 := by
            unfold sdRank
            rw [List.filter_cons_of_pos (by simpa using hgxv)]
            rfl
          rw [hrank,
            select1_true_big _ _ (by omega),
            show sdRank (scanRuns g xs (g x)).1 v + 1 + 1 - 1
              = sdRank (scanRuns g xs (g x)).1 v + 1 by omega,
            ih4 v hgxv hv,
            List.indexOf_cons_ne _ (by omega : g x ≠ v)]
    · have heqp : g x = prev := Decidable.not_not.mp hne
      have hsortskip : List.Sorted (· ≤ ·) (prev :: xs.map g) :=
        List.sorted_cons.mpr
          ⟨fun b hb => hprevle b (by simp [hb]), htail.of_cons⟩
      obtain ⟨ih1, ih2, ih3, ih4⟩ := ih prev hsortskip
      have hscan : scanRuns g (x :: xs) prev
          = ((scanRuns g xs prev).1, false :: (scanRuns g xs prev).2) := by
        simp [scanRuns, heqp]
      rw [hscan]
      refine ⟨by simpa using ih1, ih2, ?_, ?_⟩
      · intro v
        rw [ih3 v]
        constructor
        · rintro ⟨hm, hp⟩
          exact ⟨List.mem_cons.mpr (Or.inr hm), hp⟩
        · rintro ⟨hm, hp⟩
          rcases List.mem_cons.mp hm with rfl | hm
          · rw [heqp] at hp
            exact absurd hp (Nat.lt_irrefl prev)
          · exact ⟨hm, hp⟩
      · intro v hpv hv
        have hvx : g x ≠ v := by
          rw [heqp]
          omega
        rw [List.indexOf_cons_ne _ hvx, ← ih4 v hpv hv, select1_false]

theorem mem_lt_sdSize : ∀ (l : List Nat), List.Pairwise (· < ·) l →
    ∀ v ∈ l, v < sdSize l := by
  intro l
  induction l with
  | nil => intro _ v hv; cases hv
  | cons a l ih =>
    intro hp v hv
    cases l with
    | nil =>
      rcases List.mem_cons.mp hv with rfl | h
      · simp [sdSize]
      · cases h
    | cons b l2 =>
      have hsd : sdSize (a :: b :: l2) = sdSize (b :: l2) := by
        unfold sdSize
        rw [List.getLast?_cons_cons]
      rw [hsd]
      have hab : a < b := (List.pairwise_cons.mp hp).1 b (by simp)
      have hpt : List.Pairwise (· < ·) (b :: l2) := (List.pairwise_cons.mp hp).2
      rcases List.mem_cons.mp hv with rfl | h
      · have := ih hpt b (by simp)
        omega
      · exact ih hpt v h

/-- C8 (amended): for a nondecreasing getter sequence (equal values in
contiguous runs, run values strictly increasing) whose *first* value is
not the scan sentinel `2^64 - 1`, `ValueIndex::find(v)` returns the first
index whose getter value is `v`, and the input length when `v` is absent
(which is exactly `List.indexOf` on the getter sequence). -/
theorem C8_valueindex_find {α : Type} (g : α → Nat) (input : List α)
    (hsorted : List.Sorted (· ≤ ·) (input.map g))
    (hhead : ∀ x, input.head? = some x → g x ≠ 2 ^ 64 - 1)
    (value : Nat) :
    (ValueIndex.build g input).find value = (input.map g).indexOf value := by
  cases input with
  | nil =>
    simp [ValueIndex.build, ValueIndex.find, scanRuns, sdSize]
  | cons x xs =>
    have hne : g x ≠ 2 ^ 64 - 1 := hhead x rfl
    have hne2 : g x ≠ 18446744073709551615 := by omega
    have hscan : scanRuns g (x :: xs) (2 ^ 64 - 1)
        = (g x :: (scanRuns g xs (g x)).1, true :: (scanRuns g xs (g x)).2) := by
      simp [scanRuns, hne2]
    have hsorted' : List.Sorted (· ≤ ·) (g x :: xs.map g) := by
      simpa using hsorted
    obtain ⟨h1, h2, h3, h4⟩ := scanRuns_spec g xs (g x) hsorted'
    have hfull : ValueIndex.build g (x :: xs)
        = ⟨g x :: (scanRuns g xs (g x)).1, true :: (scanRuns g xs (g x)).2⟩ := by
      unfold ValueIndex.build
      rw [hscan]
    rw [hfull]
    unfold ValueIndex.find
    simp only
    by_cases hv : value ∈ g x :: (scanRuns g xs (g x)).1
    · have hlt : value < sdSize (g x :: (scanRuns g xs (g x)).1) :=
        mem_lt_sdSize _ h2 value hv
      rw [if_neg (fun hcond => hcond.elim (fun hge => by omega)
        (fun hnm => hnm hv))]
      rcases List.mem_cons.mp hv with rfl | hvin
      · have hfilter : ((g x :: (scanRuns g xs (g x)).1).filter
            (fun y => decide (y < g x))) = [] := by
          rw [List.filter_eq_nil_iff]
          intro a ha
          simp only [decide_eq_true_eq]
          rcases List.mem_cons.mp ha with rfl | ha
          · omega
          · have := ((h3 a).mp ha).2
            omega
        have hrank0 : sdRank (g x :: (scanRuns g xs (g x)).1) (g x) = 0 := by
          unfold sdRank
          rw [hfilter]
          rfl
        rw [hrank0, select1_true_one]
        show 0 = ((x :: xs).map g).indexOf (g x)
        rw [show (x :: xs).map g = g x :: xs.map g from rfl,
          List.indexOf_cons_self]
      · have hgxv : g x < value := ((h3 value).mp hvin).2
        have hrank : sdRank (g x :: (scanRuns g xs (g x)).1) value
            = sdRank (scanRuns g xs (g x)).1 value + 1 := by
          unfold sdRank
          rw [List.filter_cons_of_pos (by simpa using hgxv)]
          rfl
        rw [hrank, select1_true_big _ _ (by omega),
          show sdRank (scanRuns g xs (g x)).1 value + 1 + 1 - 1
            = sdRank (scanRuns g xs (g x)).1 value + 1 by omega,
          h4 value hgxv hvin,
          show (x :: xs).map g = g x :: xs.map g from rfl,
          List.indexOf_cons_ne _ (by omega : g x ≠ value)]
    · rw [if_pos (Or.inr hv)]
      have hvm : value ∉ (x :: xs).map g := by
        intro hm
        rw [show (x :: xs).map g = g x :: xs.map g from rfl] at hm
        rcases List.mem_cons.mp hm with rfl | hm
        · exact hv (List.mem_cons_self _ _)
        · by_cases hvx : value = g x
          · exact hv (by rw [hvx]; exact List.mem_cons_self _ _)
          · have hgxv : g x < value :=
              Nat.lt_of_le_of_ne (List.rel_of_sorted_cons hsorted' value hm)
                (fun h => hvx h.symm)
            exact hv (List.mem_cons.mpr (Or.inr ((h3 value).mpr ⟨hm, hgxv⟩)))
      rw [List.indexOf_of_not_mem hvm]
      show (true :: (scanRuns g xs (g x)).2).length = ((x :: xs).map g).length
      rw [show (x :: xs).map g = g x :: xs.map g from rfl]
      simp [h1]

/-- C8 counterexample: a single input whose getter value equals the scan
sentinel `~0 = 2^64 - 1` is silently dropped by the constructor (the
first run is never recorded), so `find` reports the value absent and
returns the input size 1 instead of the first-occurrence index 0. -/
theorem C8_sentinel_value_missed :
    (ValueIndex.build (fun x : Nat => x) [2 ^ 64 - 1]).find (2 ^ 64 - 1) = 1
    ∧ ([2 ^ 64 - 1] : List Nat).indexOf (2 ^ 64 - 1) = 0 := by
  constructor
  · decide
  · decide

/-- C8 witness: input `[3, 3, 7]` with the identity getter; `find 7`
returns the first occurrence index of 7. -/
theorem C8_valueindex_find_witness :
    (ValueIndex.build (fun x : Nat => x) [3, 3, 7]).find 7
      = (([3, 3, 7] : List Nat).map (fun x : Nat => x)).indexOf 7 :=
  C8_valueindex_find (fun x : Nat => x) [3, 3, 7]
    (by decide)
    (fun x hx => by
      simp [List.head?] at hx
      subst hx
      decide)
    7

/-! ### C9: PriorityQueue -/

namespace PriorityQueue

variable {α : Type} [LinearOrder α]

/-- `PriorityQueue::parent` (internal.h line 135): `(i - 1) / 2`. -/
def parent (i : Nat) : Nat := (i - 1) / 2

/-- `PriorityQueue::left` (internal.h line 136): `2 * i + 1`. -/
def left (i : Nat) : Nat := 2 * i + 1

/-- `PriorityQueue::right` (internal.h line 137): `2 * i + 2`. -/
def right (i : Nat) : Nat := 2 * i + 2

/-- `PriorityQueue::smaller` (internal.h lines 139-142):
`data[j] < data[i] ? j : i`.  The data array is modelled as a total
function `Nat → α`; `n` plays the role of `size()`. -/
def smaller (d : Nat → α) (i j : Nat) : Nat := if d j < d i then j else i

/-- The index computed by one iteration of `down`'s loop body
(internal.h lines 148-149): `next = smaller(i, left(i))`, refined by
`right(i)` when that child exists. -/
def next (d : Nat → α) (n i : Nat) : Nat :=
  if right i < n then smaller d (smaller d i (left i)) (right i)
  else smaller d i (left i)

/-- `std::swap(data[i], data[next])` (internal.h line 151). -/
def swap (d : Nat → α) (i j : Nat) : Nat → α :=
  Function.update (Function.update d i (d j)) j (d i)

theorem next_full (d : Nat → α) (n i : Nat) :
    (next d n i = i
      ∧ ¬ d (left i) < d i
      ∧ (right i < n → ¬ d (right i) < d i))
    ∨ ((next d n i = left i ∨ (next d n i = right i ∧ right i < n))
      ∧ d (next d n i) < d i
      ∧ d (next d n i) ≤ d (left i)
      ∧ (right i < n → d (next d n i) ≤ d (right i))) := by
  unfold next smaller
  by_cases hr : right i < n
  · rw [if_pos hr]
    by_cases hl : d (left i) < d i
    · rw [if_pos hl]
      by_cases hrl : d (right i) < d (left i)
      · rw [if_pos hrl]
        exact Or.inr ⟨Or.inr ⟨rfl, hr⟩, lt_trans hrl hl, le_of_lt hrl,
          fun _ => le_refl _⟩
      · rw [if_neg hrl]
        exact Or.inr ⟨Or.inl rfl, hl, le_refl _, fun _ => le_of_not_lt hrl⟩
    · rw [if_neg hl]
      by_cases hri : d (right i) < d i
      · rw [if_pos hri]
        exact Or.inr ⟨Or.inr ⟨rfl, hr⟩, hri,
          le_trans (le_of_lt hri) (le_of_not_lt hl), fun _ => le_refl _⟩
      · rw [if_neg hri]
        exact Or.inl ⟨rfl, hl, fun _ => hri⟩
  · rw [if_neg hr]
    by_cases hl : d (left i) < d i
    · rw [if_pos hl]
      exact Or.inr ⟨Or.inl rfl, hl, le_refl _, fun h => absurd h hr⟩
    · rw [if_neg hl]
      exact Or.inl ⟨rfl, hl, fun h => absurd h hr⟩

theorem next_gt_of_ne (d : Nat → α) (n i : Nat) (hL : left i < n)
    (hx : next d n i ≠ i) : i < next d n i ∧ next d n i < n := by
  rcases next_full d n i with ⟨he, _⟩ | ⟨hc, _⟩
  · exact absurd he hx
  · rcases hc with he | ⟨he, hrn⟩
    · rw [he]
      unfold left at *
      omega
    · rw [he]
      unfold right at *
      unfold left at hL
      omega

set_option linter.unusedVariables false in
/-- `PriorityQueue::down` (internal.h lines 144-154), as a function from
the array (with its size `n`) to the updated array. -/
def down (d : Nat → α) (n i : Nat) : Nat → α :=
  if hL : left i < n then
    if hx : next d n i = i then d
    else down (swap d i (next d n i)) n (next d n i)
  else d
termination_by n - i
decreasing_by
  have := next_gt_of_ne d n i hL hx
  omega

/-- `PriorityQueue::heapify`'s loop (internal.h lines 174-180): run
`down` at `i, i-1, ..., 0`. -/
def heapifyFrom (d : Nat → α) (n : Nat) : Nat → (Nat → α)
  | 0 => down d n 0
  | i + 1 => heapifyFrom (down d n (i + 1)) n i

/-- `PriorityQueue::heapify` (internal.h lines 168-181). -/
def heapify (d : Nat → α) (n : Nat) : Nat → α :=
  if n ≤ 1 then d else heapifyFrom d n (parent (n - 1))

/-- The binary min-heap property as the claim states it: no element is
strictly less than its parent. -/
def IsHeap (d : Nat → α) (n : Nat) : Prop :=
  ∀ j, j < n → 0 < j → ¬ d j < d (parent j)

/-- `Desc i j`: index `j` lies in the subtree rooted at `i` — the
indices `down i` may touch. -/
inductive Desc : Nat → Nat → Prop
  | refl (i : Nat) : Desc i i
  | childL {i j : Nat} : Desc (2 * i + 1) j → Desc i j
  | childR {i j : Nat} : Desc (2 * i + 2) j → Desc i j

theorem Desc.ge : ∀ {i j : Nat}, Desc i j → i ≤ j := by
  intro i j h
  induction h with
  | refl => exact Nat.le_refl _
  | childL _ ih => omega
  | childR _ ih => omega

theorem Desc.bound : ∀ {i j : Nat}, Desc i j → j = i ∨ 2 * i + 1 ≤ j := by
  intro i j h
  cases h with
  | refl => exact Or.inl rfl
  | childL h => have := h.ge; omega
  | childR h => have := h.ge; omega

theorem desc_next {d : Nat → α} {n i : Nat} (hx : next d n i ≠ i) :
    Desc i (next d n i) := by
  rcases next_full d n i with ⟨he, _⟩ | ⟨hc, _⟩
  · exact absurd he hx
  · rcases hc with he | ⟨he, _⟩
    · rw [he]
      exact Desc.childL (Desc.refl _)
    · rw [he]
      exact Desc.childR (Desc.refl _)

theorem desc_trans_child : ∀ {m i k : Nat}, Desc m i → Desc i k → Desc m k := by
  intro m i k hm
  induction hm with
  | refl => exact fun hd => hd
  | childL _ ih => exact fun hd => Desc.childL (ih hd)
  | childR _ ih => exact fun hd => Desc.childR (ih hd)

omit [LinearOrder α] in
theorem swap_apply_of_ne (d : Nat → α) (i j k : Nat) (hki : k ≠ i)
    (hkj : k ≠ j) : swap d i j k = d k := by
  unfold swap
  rw [Function.update_noteq hkj, Function.update_noteq hki]

omit [LinearOrder α] in
theorem swap_apply_fst (d : Nat → α) (i j : Nat) (hij : i ≠ j) :
    swap d i j i = d j := by
  unfold swap
  rw [Function.update_noteq hij, Function.update_same]

omit [LinearOrder α] in
theorem swap_apply_snd (d : Nat → α) (i j : Nat) : swap d i j j = d i := by
  unfold swap
  rw [Function.update_same]

theorem down_frame : ∀ (fuel : Nat) (d : Nat → α) (n i : Nat), n - i ≤ fuel →
    ∀ k, ¬ Desc i k → down d n i k = d k := by
  intro fuel
  induction fuel with
  | zero =>
    intro d n i hf k _
    rw [down, dif_neg (show ¬ left i < n by unfold left; omega)]
  | succ fuel ih =>
    intro d n i hf k hk
    rw [down]
    by_cases hL : left i < n
    · rw [dif_pos hL]
      by_cases hx : next d n i = i
      · rw [dif_pos hx]
      · rw [dif_neg hx]
        have hgt := next_gt_of_ne d n i hL hx
        have hdesc : Desc i (next d n i) := desc_next hx
        have hknx : ¬ Desc (next d n i) k :=
          fun h => hk (desc_trans_child hdesc h)
        rw [ih _ n _ (by omega) k hknx]
        exact swap_apply_of_ne d i (next d n i) k
          (fun h => hk (h ▸ Desc.refl k))
          (fun h => hk (h ▸ hdesc))
    · rw [dif_neg hL]

theorem parent_children {j p : Nat} (hj : 0 < j) (hp : parent j = p) :
    j = 2 * p + 1 ∨ j = 2 * p + 2 := by
  unfold parent at hp
  omega

theorem desc_lb (d : Nat → α) (n m0 : Nat)
    (hheap : ∀ j, j < n → 0 < j → m0 ≤ parent j → d (parent j) ≤ d j) :
    ∀ m k, Desc m k → m0 ≤ m → k < n → d m ≤ d k := by
  intro m k hdesc
  induction hdesc with
  | refl => exact fun _ _ => le_refl _
  | @childL i j hd ih =>
    intro hm hj
    have hij : 2 * i + 1 ≤ j := hd.ge
    have hpar : parent (2 * i + 1) = i := by unfold parent; omega
    have hstep : d i ≤ d (2 * i + 1) := by
      have := hheap (2 * i + 1) (by omega) (by omega) (by rw [hpar]; omega)
      rwa [hpar] at this
    exact le_trans hstep (ih (by omega) hj)
  | @childR i j hd ih =>
    intro hm hj
    have hij : 2 * i + 2 ≤ j := hd.ge
    have hpar : parent (2 * i + 2) = i := by unfold parent; omega
    have hstep : d i ≤ d (2 * i + 2) := by
      have := hheap (2 * i + 2) (by omega) (by omega) (by rw [hpar]; omega)
      rwa [hpar] at this
    exact le_trans hstep (ih (by omega) hj)

theorem down_lb_desc : ∀ (fuel : Nat) (d : Nat → α) (n i : Nat), n - i ≤ fuel →
    ∀ c : α, (∀ k, k < n → Desc i k → c ≤ d k) →
    ∀ k, k < n → Desc i k → c ≤ down d n i k := by
  intro fuel
  induction fuel with
  | zero =>
    intro d n i hf c hc k hk hd
    rw [down, dif_neg (show ¬ left i < n by unfold left; omega)]
    exact hc k hk hd
  | succ fuel ih =>
    intro d n i hf c hc k hk hd
    rw [down]
    by_cases hL : left i < n
    · rw [dif_pos hL]
      by_cases hx : next d n i = i
      · rw [dif_pos hx]
        exact hc k hk hd
      · rw [dif_neg hx]
        have hgt := next_gt_of_ne d n i hL hx
        have hdnx : Desc i (next d n i) := desc_next hx
        have hc2 : ∀ k2, k2 < n → Desc (next d n i) k2 →
            c ≤ swap d i (next d n i) k2 := by
          intro k2 hk2 hd2
          by_cases hk2i : k2 = i
          · subst hk2i
            have := hd2.ge
            omega
          · by_cases hk2x : k2 = next d n i
            · subst hk2x
              rw [swap_apply_snd]
              exact hc i (by omega) (Desc.refl i)
            · rw [swap_apply_of_ne d i (next d n i) k2 hk2i hk2x]
              exact hc k2 hk2 (desc_trans_child hdnx hd2)
        by_cases hdk : Desc (next d n i) k
        · exact ih _ n _ (by omega) c hc2 k hk hdk
        · rw [down_frame (n - next d n i) _ n _ (le_refl _) k hdk]
          by_cases hki : k = i
          · subst hki
            rw [swap_apply_fst d k (next d n k) (by omega)]
            exact hc (next d n k) (by omega) (desc_next hx)
          · by_cases hkx : k = next d n i
            · subst hkx
              exact absurd (Desc.refl _) hdk
            · rw [swap_apply_of_ne d i (next d n i) k hki hkx]
              exact hc k hk hd
    · rw [dif_neg hL]
      exact hc k hk hd

theorem down_lb (d : Nat → α) (n i : Nat) (c : α)
    (hc : ∀ k, k < n → c ≤ d k) :
    ∀ k, k < n → c ≤ down d n i k := by
  intro k hk
  by_cases hd : Desc i k
  · exact down_lb_desc (n - i) d n i (le_refl _) c
      (fun k2 hk2 _ => hc k2 hk2) k hk hd
  · rw [down_frame (n - i) d n i (le_refl _) k hd]
    exact hc k hk

theorem down_correct : ∀ (fuel : Nat) (d : Nat → α) (n i : Nat), n - i ≤ fuel →
    (∀ j, j < n → 0 < j → i < parent j → d (parent j) ≤ d j) →
    ∀ j, j < n → 0 < j → i ≤ parent j →
      down d n i (parent j) ≤ down d n i j := by
  intro fuel
  induction fuel with
  | zero =>
    intro d n i hf hpre j hj hj0 hpj
    have : parent j < j := by unfold parent; omega
    omega
  | succ fuel ih =>
    intro d n i hf hpre j hj hj0 hpj
    rw [down]
    by_cases hL : left i < n
    · rw [dif_pos hL]
      by_cases hx : next d n i = i
      · rw [dif_pos hx]
        rcases next_full d n i with ⟨_, hl, hr⟩ | ⟨_, hlt, _, _⟩
        · by_cases hpi : parent j = i
          · rcases parent_children hj0 hpi with hc | hc
            · rw [hpi, hc]
              have hle := le_of_not_lt hl
              unfold left at hle
              exact hle
            · have hrn : right i < n := by
                unfold right
                omega
              rw [hpi, hc]
              have hle := le_of_not_lt (hr hrn)
              unfold right at hle
              exact hle
          · exact hpre j hj hj0 (by omega)
        · rw [hx] at hlt
          exact absurd hlt (lt_irrefl _)
      · rw [dif_neg hx]
        have hgt := next_gt_of_ne d n i hL hx
        have hdnx : Desc i (next d n i) := desc_next hx
        rcases next_full d n i with ⟨he, _, _⟩ | ⟨hshape, hlt, hle_l, hle_r⟩
        · exact absurd he hx
        have hparnx : parent (next d n i) = i := by
          rcases hshape with he | ⟨he, _⟩
          · rw [he]
            unfold parent left
            omega
          · rw [he]
            unfold parent right
            omega
        have hpre2 : ∀ j2, j2 < n → 0 < j2 → next d n i < parent j2 →
            swap d i (next d n i) (parent j2) ≤ swap d i (next d n i) j2 := by
          intro j2 hj2 hj20 hpj2
          have hpar2 : parent j2 < j2 := by unfold parent; omega
          rw [swap_apply_of_ne d i _ _ (by omega) (by omega),
            swap_apply_of_ne d i _ j2 (by omega) (by omega)]
          exact hpre j2 hj2 hj20 (by omega)
        have hd3i : down (swap d i (next d n i)) n (next d n i) i
            = d (next d n i) := by
          rw [down_frame (n - next d n i) _ n _ (le_refl _) i
            (fun h => by have := h.ge; omega),
            swap_apply_fst d i _ (by omega)]
        have hlb_nx : d (next d n i) ≤
            down (swap d i (next d n i)) n (next d n i) (next d n i) :=
          down_lb_desc (n - next d n i) _ n _ (le_refl _) (d (next d n i))
            (by
              intro k hk hdk
              by_cases hkx : k = next d n i
              · subst hkx
                rw [swap_apply_snd]
                exact le_of_lt hlt
              · have hki : k ≠ i := by
                  have := hdk.ge
                  omega
                rw [swap_apply_of_ne d i _ _ hki hkx]
                exact desc_lb d n (next d n i)
                  (fun j3 hj3 hj30 hpj3 => hpre j3 hj3 hj30 (by omega))
                  (next d n i) k hdk (le_refl _) hk)
            (next d n i) hgt.2 (Desc.refl _)
        by_cases hcase : next d n i ≤ parent j
        · exact ih (swap d i (next d n i)) n (next d n i) (by omega) hpre2
            j hj hj0 hcase
        · by_cases hpi : parent j = i
          · by_cases hjx : j = next d n i
            · rw [hpi, hjx, hd3i]
              exact hlb_nx
            · have hjd : ¬ Desc (next d n i) j := by
                intro hd2
                rcases hd2.bound with h1 | h1
                · exact hjx h1
                · rcases parent_children hj0 hpi with hc | hc <;>
                    (unfold left at hL; omega)
              rw [hpi, hd3i,
                down_frame (n - next d n i) _ n _ (le_refl _) j hjd,
                swap_apply_of_ne d i _ j
                  (by
                    have : parent j < j := by unfold parent; omega
                    omega)
                  hjx]
              rcases parent_children hj0 hpi with hc | hc
              · rw [hc]
                have hle := hle_l
                unfold left at hle
                exact hle
              · have hrn : right i < n := by
                  unfold right
                  omega
                rw [hc]
                have hle := hle_r hrn
                unfold right at hle
                exact hle
          · have hpgt : i < parent j := by omega
            have hplt2 : parent j < next d n i := by omega
            have hpd : ¬ Desc (next d n i) (parent j) := fun h => by
              have := h.ge
              omega
            have hjd : ¬ Desc (next d n i) j := by
              intro hd2
              rcases hd2.bound with h1 | h1
              · rw [h1, hparnx] at hpi
                exact hpi rfl
              · unfold parent at hplt2
                omega
            have hji2 : j ≠ i := by
              have : parent j < j := by unfold parent; omega
              omega
            have hjx2 : j ≠ next d n i := fun he => hjd (he ▸ Desc.refl _)
            rw [down_frame (n - next d n i) _ n _ (le_refl _) _ hpd,
              down_frame (n - next d n i) _ n _ (le_refl _) j hjd,
              swap_apply_of_ne d i _ _ hpi (by omega),
              swap_apply_of_ne d i _ j hji2 hjx2]
            exact hpre j hj hj0 hpgt
    · rw [dif_neg hL]
      by_cases hpi : parent j = i
      · rcases parent_children hj0 hpi with hc | hc <;>
          (unfold left at hL; omega)
      · exact hpre j hj hj0 (by omega)

theorem isHeap_iff (d : Nat → α) (n : Nat) :
    IsHeap d n ↔ ∀ j, j < n → 0 < j → d (parent j) ≤ d j := by
  unfold IsHeap
  constructor <;> intro h j h1 h2
  · exact not_lt.mp (h j h1 h2)
  · exact not_lt.mpr (h j h1 h2)

theorem heapifyFrom_correct : ∀ (i : Nat) (d : Nat → α) (n : Nat),
    (∀ j, j < n → 0 < j → i < parent j → d (parent j) ≤ d j) →
    IsHeap (heapifyFrom d n i) n := by
  intro i
  induction i with
  | zero =>
    intro d n hpre
    rw [isHeap_iff]
    intro j hj hj0
    show down d n 0 (parent j) ≤ down d n 0 j
    exact down_correct n d n 0 (by omega) hpre j hj hj0 (Nat.zero_le _)
  | succ i ih =>
    intro d n hpre
    show IsHeap (heapifyFrom (down d n (i + 1)) n i) n
    apply ih
    intro j hj hj0 hpj
    exact down_correct n d n (i + 1) (by omega) hpre j hj hj0 (by omega)

theorem heapify_correct (d : Nat → α) (n : Nat) : IsHeap (heapify d n) n := by
  unfold heapify
  by_cases hn : n ≤ 1
  · rw [if_pos hn]
    intro j hj hj0
    exact absurd hj (by omega)
  · rw [if_neg hn]
    apply heapifyFrom_correct
    intro j hj hj0 hpj
    exfalso
    unfold parent at hpj
    omega

theorem isHeap_root_min (d : Nat → α) (n : Nat) (h : IsHeap d n) :
    ∀ j, j < n → d 0 ≤ d j := by
  intro j
  induction j using Nat.strong_induction_on with
  | _ j ih =>
    intro hj
    rcases Nat.eq_zero_or_pos j with h0 | hpos
    · subst h0
      exact le_refl _
    · have hp := not_lt.mp (h j hj hpos)
      have hplt : parent j < j := by unfold parent; omega
      exact le_trans (ih (parent j) hplt (by omega)) hp

/-- Modelled from the spec: the spec (4.I, section 8) speaks of
"iteratively extracting the root", but no extraction operation is
implemented in the given sources.  It is modelled as the standard
binary-heap removal: emit the root, move the last element to the root,
shrink the heap by one, and restore the heap property with the source's
`down`. -/
def extractAll (d : Nat → α) : Nat → List α
  | 0 => []
  | n + 1 => d 0 :: extractAll (down (swap d 0 n) n 0) n

theorem extract_chain : ∀ (n : Nat) (d : Nat → α), IsHeap d n →
    List.Chain' (· ≤ ·) (extractAll d n) := by
  intro n
  induction n with
  | zero =>
    intro d _
    simp [extractAll]
  | succ n ih =>
    intro d hheap
    show List.Chain' (· ≤ ·) (d 0 :: extractAll (down (swap d 0 n) n 0) n)
    have hroot : ∀ k, k < n + 1 → d 0 ≤ d k := isHeap_root_min d (n + 1) hheap
    have hpre2 : ∀ j, j < n → 0 < j → 0 < parent j →
        swap d 0 n (parent j) ≤ swap d 0 n j := by
      intro j hj hj0 hpj
      have hplt : parent j < j := by unfold parent; omega
      rw [swap_apply_of_ne d 0 n _ (by omega) (by omega),
        swap_apply_of_ne d 0 n j (by omega) (by omega)]
      exact not_lt.mp (hheap j (by omega) hj0)
    have hheap2 : IsHeap (down (swap d 0 n) n 0) n := by
      rw [isHeap_iff]
      intro j hj hj0
      exact down_correct n (swap d 0 n) n 0 (by omega) hpre2 j hj hj0
        (Nat.zero_le _)
    have hlb : ∀ k, k < n → d 0 ≤ down (swap d 0 n) n 0 k := by
      apply down_lb
      intro k hk
      by_cases hk0 : k = 0
      · subst hk0
        rw [swap_apply_fst d 0 n (by omega)]
        exact hroot n (by omega)
      · rw [swap_apply_of_ne d 0 n k hk0 (by omega)]
        exact hroot k (by omega)
    rw [List.chain'_cons']
    refine ⟨?_, ih (down (swap d 0 n) n 0) hheap2⟩
    intro y hy
    cases n with
    | zero => simp [extractAll] at hy
    | succ m =>
      have hhead : (extractAll (down (swap d 0 (m + 1)) (m + 1) 0)
          (m + 1)).head? = some (down (swap d 0 (m + 1)) (m + 1) 0 0) := rfl
      rw [hhead] at hy
      have hym : y = down (swap d 0 (m + 1)) (m + 1) 0 0 := by
        simpa using hy.symm
      rw [hym]
      exact hlb 0 (by omega)

end PriorityQueue

/-- C9: after `PriorityQueue::heapify` the array satisfies the binary
min-heap property (no element is strictly less than its parent), so
iteratively extracting the root yields a nondecreasing sequence; and
`smaller(i, j)` returns `j` only when `data[j] < data[i]` strictly (or
trivially when `j = i`), so equal keys are never swapped by `down`. -/
theorem C9_priorityqueue {α : Type} [LinearOrder α] :
    (∀ (d : Nat → α) (n : Nat),
      PriorityQueue.IsHeap (PriorityQueue.heapify d n) n)
    ∧ (∀ (d : Nat → α) (n : Nat),
      List.Chain' (· ≤ ·)
        (PriorityQueue.extractAll (PriorityQueue.heapify d n) n))
    ∧ (∀ (d : Nat → α) (i j : Nat),
      PriorityQueue.smaller d i j = j → d j < d i ∨ j = i) := by
  refine ⟨fun d n => PriorityQueue.heapify_correct d n,
    fun d n => PriorityQueue.extract_chain n (PriorityQueue.heapify d n)
      (PriorityQueue.heapify_correct d n),
    fun d i j hs => ?_⟩
  unfold PriorityQueue.smaller at hs
  by_cases hc : d j < d i
  · exact Or.inl hc
  · rw [if_neg hc] at hs
    exact Or.inr hs.symm

/-- C9 witness: `smaller` at a concrete two-element array where the
second element is strictly smaller. -/
theorem C9_priorityqueue_witness :
    (fun k => if k = 0 then (5 : Nat) else 3) 1
        < (fun k => if k = 0 then (5 : Nat) else 3) 0
    ∨ (1 : Nat) = 0 :=
  C9_priorityqueue.2.2 (fun k => if k = 0 then (5 : Nat) else 3) 0 1
    (by decide)
